import Mathlib

/-!
# Minikin `Layout.cpp`: bitmap compositing and glyph layout

A shallow embedding of `libs/minikin/Layout.cpp` and `include/minikin/Layout.h`, and the
properties of `Bitmap::drawGlyph`, `Layout::findFace`, `Layout::doLayout`, `Layout::draw` and
the fixed-point conversions proved about it.

Conventions of the embedding.

* C `int` values are mathematical integers (`Int`); signed overflow is undefined in C and
  is not modelled.
* A byte buffer is a `List Nat`; a pointer into it is an `Int` index.  Reading or writing
  outside the buffer is undefined behaviour in C and is modelled by `none`; so is
  `operator[]` outside a `std::vector`.
* A `uint8_t` store keeps the value modulo 256.
* A `float` or `double` is the rational it denotes, and each floating operation rounds to
  the format (section "Floating point").
* FreeType, HarfBuzz and the font collection are parameters: an `Engine` over a state of
  its own, and the `itemize` function of the `FontCollection`.  `CssProperties` is the pair
  of methods the code calls.
-/

namespace android

/-! ## Buffers and counted loops -/

/-- Read `p[i]` from the buffer `mem`; `none` when the index is outside the buffer. -/
def readAt (mem : List Nat) (i : Int) : Option Nat :=
  if 0 ≤ i then mem[i.toNat]? else none

/-- Store `p[i] = v`; `none` when the index is outside the buffer. -/
def writeAt (mem : List Nat) (i : Int) (v : Nat) : Option (List Nat) :=
  if 0 ≤ i ∧ i.toNat < mem.length then some (mem.set i.toNat v) else none

/-- The loop `for (int i = lo; i < hi; i++) body(i)` over a state `σ`, where the body
neither changes `i` nor `hi`; a body that fails stops the loop with `none`. -/
def forLoop {σ : Type} (lo hi : Int) (body : Int → σ → Option σ) (s : σ) : Option σ :=
  (List.range (hi - lo).toNat).foldlM (fun st (k : Nat) => body (lo + (k : Int)) st) s

/-! ## `Bitmap` -/

/-- The fields of FreeType's `FT_Bitmap` that `Bitmap::drawGlyph` reads: the code takes the
rows of the buffer to be `width` bytes apart and does not read `pitch`. -/
structure FT_Bitmap where
  rows : Int
  width : Int
  buffer : List Nat
  deriving DecidableEq, Repr

/-- The class `Bitmap` of `Layout.h`: `width`, `height` and the buffer `buf`. -/
structure Bitmap where
  width : Int
  height : Int
  buf : List Nat
  deriving DecidableEq, Repr

/-- The constructor `Bitmap::Bitmap(width, height)`: a zero-filled buffer of `width * height`
bytes. -/
def Bitmap.new (width height : Int) : Bitmap :=
  { width := width, height := height, buf := List.replicate (width * height).toNat 0 }

/-- The body of the inner loop of `Bitmap::drawGlyph` (lines 59-61), `src` and `dst` being the
current row pointers as indices into the source buffer and into `buf`. -/
def drawGlyphPixel (srcBuf : List Nat) (x src dst xx : Int) (buf : List Nat) :
    Option (List Nat) :=
  match readAt buf (dst + xx), readAt srcBuf (src + (xx - x)) with
  | some d, some s =>
    let pixel := d + s
    let pixel := if pixel > 0xff then 0xff else pixel
    writeAt buf (dst + xx) (pixel % 256)
  | _, _ => none

/-- The state of the outer loop of `Bitmap::drawGlyph`: the row pointers and the buffer. -/
structure DrawState where
  src : Int
  dst : Int
  buf : List Nat
  deriving DecidableEq, Repr

/-- The body of the outer loop of `Bitmap::drawGlyph` (lines 58-64): the inner loop over
`xx`, then `src += bmw; dst += width`. -/
def drawGlyphRow (srcBuf : List Nat) (x x0 x1 bmw width : Int) (st : DrawState) :
    Option DrawState :=
  match forLoop x0 x1 (fun xx buf => drawGlyphPixel srcBuf x st.src st.dst xx buf) st.buf with
  | some buf => some { src := st.src + bmw, dst := st.dst + width, buf := buf }
  | none => none

/-- The method `Bitmap::drawGlyph(bitmap, x, y)` (lines 48-66). -/
def Bitmap.drawGlyph (self : Bitmap) (bitmap : FT_Bitmap) (x y : Int) : Option Bitmap :=
  let bmw := bitmap.width
  let bmh := bitmap.rows
  let x0 := max 0 x
  let x1 := min self.width (x + bmw)
  let y0 := max 0 y
  let y1 := min self.height (y + bmh)
  let src := (y0 - y) * bmw + (x0 - x)
  let dst := y0 * self.width
  match forLoop y0 y1 (fun _ st => drawGlyphRow bitmap.buffer x x0 x1 bmw self.width st)
      { src := src, dst := dst, buf := self.buf } with
  | some st => some { self with buf := st.buf }
  | none => none

/-- The byte of the surface at column `xx` of row `yy` (row-major, `width` bytes a row). -/
def Bitmap.pixel (self : Bitmap) (xx yy : Int) : Option Nat :=
  readAt self.buf (yy * self.width + xx)

/-- The byte of a glyph bitmap at column `c` of row `r` (rows of `width` bytes, as
`drawGlyph` reads them). -/
def FT_Bitmap.pixel (self : FT_Bitmap) (c r : Int) : Option Nat :=
  readAt self.buffer (r * self.width + c)

/-- A surface as the constructor makes it and `drawGlyph` keeps it: non-negative sizes, a
buffer of `width * height` bytes. -/
def Bitmap.WF (self : Bitmap) : Prop :=
  0 ≤ self.width ∧ 0 ≤ self.height ∧ (self.buf.length : Int) = self.width * self.height ∧
    ∀ v ∈ self.buf, v < 256

/-- A glyph bitmap whose buffer holds `rows * width` bytes. -/
def FT_Bitmap.WF (self : FT_Bitmap) : Prop :=
  0 ≤ self.width ∧ 0 ≤ self.rows ∧ (self.buffer.length : Int) = self.rows * self.width ∧
    ∀ v ∈ self.buffer, v < 256

/-! ## Floating point

A C `float` or `double` value is the rational it denotes.  An operation of the code rounds
its exact result to the nearest value of the format, ties to even (`fpRound 24` for `float`,
`fpRound 53` for `double`).  The exponent range is not modelled: no infinities, NaNs or
subnormal precision loss. -/

/-- The integer nearest to `q`, a tie going to the even one. -/
def roundNearestEven (q : ℚ) : Int :=
  let f := ⌊q⌋
  let r := q - f
  if r < 1 / 2 then f else if 1 / 2 < r then f + 1 else if f % 2 = 0 then f else f + 1

/-- Round `q` to a binary floating-point number with `p` significand bits: with
`2 ^ l ≤ |q| < 2 ^ (l + 1)`, the nearest multiple of `2 ^ (l - (p - 1))`. -/
def fpRound (p : Nat) (q : ℚ) : ℚ :=
  if q = 0 then 0 else
    let e : Int := Int.log 2 |q| - ((p : Int) - 1)
    (roundNearestEven (q / 2 ^ e) : ℚ) * 2 ^ e

/-- The rationals a binary format with `p` significand bits holds: `m * 2 ^ e` with
`|m| < 2 ^ p`. -/
def IsFloat (p : Nat) (q : ℚ) : Prop := ∃ m e : Int, |m| < 2 ^ p ∧ q = m * 2 ^ e

/-- Conversion to `float` (24 significand bits). -/
def toFloat (q : ℚ) : ℚ := fpRound 24 q

/-- Conversion to `double` (53 significand bits). -/
def toDouble (q : ℚ) : ℚ := fpRound 53 q

/-- Conversion of a floating value to an integer type: truncation toward zero (undefined in
C when the result does not fit the type; the range is not checked here). -/
def truncToInt (q : ℚ) : Int := if 0 ≤ q then ⌊q⌋ else ⌈q⌉

/-- The C library function `scalbnf(v, n)`: `v * 2 ^ n` as a `float`. -/
def scalbnf (v : ℚ) (n : Int) : ℚ := toFloat (v * 2 ^ n)

/-- The `float` sum `a + b`. -/
def fadd (a b : ℚ) : ℚ := toFloat (a + b)

/-- The function `HBFixedToFloat` (lines 146-149): the `hb_position_t` argument is converted
to `float` for `scalbnf`. -/
def HBFixedToFloat (v : Int) : ℚ := scalbnf (toFloat v) (-8)

/-- The function `HBFloatToFixed` (lines 151-154): the `float` result of `scalbnf` is
converted to `hb_position_t`. -/
def HBFloatToFixed (v : ℚ) : Int := truncToInt (scalbnf v 8)

/-! ## The collaborators: FreeType, HarfBuzz, the font collection, the style properties -/

/-- An `FT_Face` is a pointer; only its identity matters. -/
abbrev FT_Face := Nat

/-- FreeType's error code; `0` is success. -/
abbrev FT_Error := Int

/-- The fields of `face->glyph` (`FT_GlyphSlotRec`) that the code reads. -/
structure FT_GlyphSlotRec where
  bitmap : FT_Bitmap
  bitmap_left : Int
  bitmap_top : Int
  advance_x : Int
  deriving DecidableEq, Repr

/-- What `create_hb_font`, `hb_font_set_ppem` and `hb_font_set_scale` make of an
`hb_font_t`: the face it is bound to, its ppem and its scale. -/
structure hb_font_t where
  face : FT_Face
  x_ppem : Int
  y_ppem : Int
  x_scale : Int
  y_scale : Int
  deriving DecidableEq, Repr

/-- One shaped glyph: `info[i].codepoint` of `hb_glyph_info_t` and the fields of
`positions[i]` (`hb_glyph_position_t`). -/
structure ShapedGlyph where
  codepoint : Nat
  x_advance : Int
  y_advance : Int
  x_offset : Int
  y_offset : Int
  deriving DecidableEq, Repr

/-- The external engines, over a state `S` of theirs (face sizes, glyph slots, the shaping
buffer).  Each call returns its result and the state it leaves. -/
structure Engine (S : Type) where
  /-- The call `FT_Set_Pixel_Sizes(face, pixel_width, pixel_height)`. -/
  FT_Set_Pixel_Sizes : S → FT_Face → Int → Int → FT_Error × S
  /-- The call `FT_Load_Glyph(face, glyph_index, load_flags)`. -/
  FT_Load_Glyph : S → FT_Face → Nat → Int → FT_Error × S
  /-- The call `FT_Render_Glyph(face->glyph, FT_RENDER_MODE_NORMAL)`. -/
  FT_Render_Glyph : S → FT_Face → FT_Error × S
  /-- The record `face->glyph`. -/
  glyph : S → FT_Face → FT_GlyphSlotRec
  /-- The calls `hb_buffer_reset` .. `hb_buffer_get_glyph_positions` of lines 219-225 for
  the font, the text, `item_offset` and `item_length`: the shaped glyphs in buffer order. -/
  hb_shape : S → hb_font_t → List Nat → Int → Int → List ShapedGlyph × S

/-- The style key `FontStyle(weight, italic)`. -/
structure FontStyle where
  weight : Int
  italic : Bool
  deriving DecidableEq, Repr

/-- The fields of `FontCollection::Run` that the code reads; `end_` is the field `end`. -/
structure Run where
  font : FT_Face
  start : Int
  end_ : Int
  deriving DecidableEq, Repr

/-- The class `FontCollection`, of which the code calls `itemize(buf, nchars, style, &items)`;
the text is the list of its `nchars` code units. -/
structure FontCollection where
  itemize : List Nat → FontStyle → List Run

/-- The property tags of `CssParse.h` that the code names. -/
inductive CssTag where
  | fontSize
  | fontWeight
  | fontStyle
  | minikinHinting
  deriving DecidableEq, Repr

/-- A property value with its two readings, `getFloatValue()` and `getIntValue()`. -/
structure CssValue where
  getFloatValue : ℚ
  getIntValue : Int

/-- The class `CssProperties` through the two methods the code calls. -/
structure CssProperties where
  hasTag : CssTag → Bool
  value : CssTag → CssValue

/-- The value `FT_LOAD_DEFAULT` of `freetype.h`. -/
def FT_LOAD_DEFAULT : Int := 0x0

/-- The value `FT_LOAD_NO_HINTING` of `freetype.h`, `1L << 1`. -/
def FT_LOAD_NO_HINTING : Int := 2

/-- The value `FT_LOAD_NO_AUTOHINT` of `freetype.h`, `1L << 15`. -/
def FT_LOAD_NO_AUTOHINT : Int := 32768

/-! ## `Layout` -/

/-- The struct `LayoutGlyph` of `Layout.h`; `x` and `y` are `float`s. -/
structure LayoutGlyph where
  font_ix : Int
  glyph_id : Nat
  x : ℚ
  y : ℚ
  deriving DecidableEq, Repr

/-- The class `Layout` of `Layout.h`. -/
structure Layout where
  mProps : CssProperties
  mGlyphs : List LayoutGlyph
  mCollection : FontCollection
  mFaces : List FT_Face
  mHbFonts : List hb_font_t

/-- The `operator[]` of a `std::vector` at an `int` index; `none` outside the vector. -/
def vecAt {α : Type} (v : List α) (i : Int) : Option α :=
  if 0 ≤ i then v[i.toNat]? else none

/-- The function `create_hb_font(ftFace)`: a font bound to the face, nothing set yet. -/
def create_hb_font (ftFace : FT_Face) : hb_font_t :=
  { face := ftFace, x_ppem := 0, y_ppem := 0, x_scale := 0, y_scale := 0 }

/-- HarfBuzz's `hb_font_set_ppem(font, x_ppem, y_ppem)`. -/
def hb_font_set_ppem (font : hb_font_t) (x_ppem y_ppem : Int) : hb_font_t :=
  { font with x_ppem := x_ppem, y_ppem := y_ppem }

/-- HarfBuzz's `hb_font_set_scale(font, x_scale, y_scale)`. -/
def hb_font_set_scale (font : hb_font_t) (x_scale y_scale : Int) : hb_font_t :=
  { font with x_scale := x_scale, y_scale := y_scale }

/-- The loop of `Layout::findFace` (lines 169-173) from index `ix` over the entries not yet
compared: the index it returns at, or `none` when it runs to the end of `mFaces`. -/
def findFaceLoop (face : FT_Face) : List FT_Face → Nat → Option Nat
  | [], _ => none
  | f :: rest, ix => if f = face then some ix else findFaceLoop face rest (ix + 1)

/-- The method `Layout::findFace(face)` (lines 167-182): the index returned, the layout and
the engine state left.  The `FT_Error` of `FT_Set_Pixel_Sizes` is stored and never read. -/
def Layout.findFace {S : Type} (E : Engine S) (self : Layout) (σ : S) (face : FT_Face) :
    Int × Layout × S :=
  match findFaceLoop face self.mFaces 0 with
  | some ix => ((ix : Int), self, σ)
  | none =>
    let ix := self.mFaces.length
    let size : ℚ := (self.mProps.value CssTag.fontSize).getFloatValue
    let (_error, σ) := E.FT_Set_Pixel_Sizes σ face 0 (truncToInt size)
    let mFaces := self.mFaces ++ [face]
    let font := create_hb_font face
    let font := hb_font_set_ppem font (truncToInt size) (truncToInt size)
    let font := hb_font_set_scale font (HBFloatToFixed (toFloat size))
      (HBFloatToFixed (toFloat size))
    ((ix : Int), { self with mFaces := mFaces, mHbFonts := self.mHbFonts ++ [font] }, σ)

/-- The function `styleFromCss(props)` (lines 184-195). -/
def styleFromCss (props : CssProperties) : FontStyle :=
  let weight : Int := 4
  let weight := if props.hasTag CssTag.fontWeight then
    Int.tdiv (props.value CssTag.fontWeight).getIntValue 100 else weight
  let italic := false
  let italic := if props.hasTag CssTag.fontStyle then
    decide ((props.value CssTag.fontStyle).getIntValue ≠ 0) else italic
  { weight := weight, italic := italic }

/-- The state of the loops of `Layout::doLayout`: the layout, the engine state and the pen
`x`, `y`. -/
structure LayoutState (S : Type) where
  layout : Layout
  σ : S
  x : ℚ
  y : ℚ

/-- The body of the inner loop of `Layout::doLayout` (lines 231-236) for one shaped glyph. -/
def layoutGlyph {S : Type} (font_ix : Int) (st : LayoutState S) (g : ShapedGlyph) :
    LayoutState S :=
  let glyph_ix := g.codepoint
  let xoff := HBFixedToFloat g.x_offset
  let yoff := HBFixedToFloat g.y_offset
  let glyph : LayoutGlyph :=
    { font_ix := font_ix, glyph_id := glyph_ix, x := fadd st.x xoff, y := fadd st.y yoff }
  { st with
    layout := { st.layout with mGlyphs := st.layout.mGlyphs ++ [glyph] }
    x := fadd st.x (HBFixedToFloat g.x_advance) }

/-- One run as `Layout::doLayout` shaped it: the run, the `font_ix` that `findFace` returned
for it and the glyphs the shaping engine returned. -/
structure ShapedRun where
  run : Run
  font_ix : Int
  shaped : List ShapedGlyph
  deriving DecidableEq, Repr

/-- The first part of the body of the outer loop of `Layout::doLayout` (lines 211-225):
`findFace`, the lookup `mHbFonts[font_ix]` and the shaping of the run; `none` when the lookup
is outside the vector. -/
def shapeRun {S : Type} (E : Engine S) (buf : List Nat) (st : LayoutState S) (run : Run) :
    Option (ShapedRun × LayoutState S) :=
  match vecAt (st.layout.findFace E st.σ run.font).2.1.mHbFonts
      (st.layout.findFace E st.σ run.font).1 with
  | none => none
  | some hbFont =>
    some ({ run := run, font_ix := (st.layout.findFace E st.σ run.font).1,
            shaped := (E.hb_shape (st.layout.findFace E st.σ run.font).2.2 hbFont buf run.start
              (run.end_ - run.start)).1 },
          { st with
            layout := (st.layout.findFace E st.σ run.font).2.1
            σ := (E.hb_shape (st.layout.findFace E st.σ run.font).2.2 hbFont buf run.start
              (run.end_ - run.start)).2 })

/-- The body of the outer loop of `Layout::doLayout` (lines 211-237) for one run: `shapeRun`,
then the inner loop over the shaped glyphs. -/
def layoutRun {S : Type} (E : Engine S) (buf : List Nat) (st : LayoutState S) (run : Run) :
    Option (LayoutState S) :=
  match shapeRun E buf st run with
  | none => none
  | some (sr, st) => some (sr.shaped.foldl (layoutGlyph sr.font_ix) st)

/-- The state in which `Layout::doLayout` enters its loop over the runs (lines 205-209). -/
def doLayoutInit {S : Type} (self : Layout) (σ : S) : LayoutState S :=
  { layout := { self with mGlyphs := [], mFaces := [], mHbFonts := [] }, σ := σ, x := 0, y := 0 }

/-- The method `Layout::doLayout(buf, nchars)` (lines 198-239), `buf` being the list of the
`nchars` code units. -/
def Layout.doLayout {S : Type} (E : Engine S) (self : Layout) (σ : S) (buf : List Nat) :
    Option (Layout × S) :=
  let style := styleFromCss self.mProps
  let items := self.mCollection.itemize buf style
  match items.foldlM (layoutRun E buf) (doLayoutInit self σ) with
  | some st => some (st.layout, st.σ)
  | none => none

/-- The load flags `Layout::draw` computes (lines 243-248). -/
def loadFlags (mProps : CssProperties) : Int :=
  let load_flags := FT_LOAD_DEFAULT
  if mProps.hasTag CssTag.minikinHinting then
    let hintflags := (mProps.value CssTag.minikinHinting).getIntValue
    let load_flags := if Int.land hintflags 1 ≠ 0 then Int.lor load_flags FT_LOAD_NO_HINTING
      else load_flags
    let load_flags := if Int.land hintflags 2 ≠ 0 then Int.lor load_flags FT_LOAD_NO_AUTOHINT
      else load_flags
    load_flags
  else load_flags

/-- The expression `int(floor(v + 0.5))` of lines 255-256 for a `float` `v`: the sum is a
`double` sum. -/
def roundCoord (v : ℚ) : Int := ⌊toDouble (v + 1 / 2)⌋

/-- The second argument of the `drawGlyph` call of `Layout::draw` (line 255). -/
def drawLeft (x0 : Int) (glyph : LayoutGlyph) (slot : FT_GlyphSlotRec) : Int :=
  x0 + roundCoord glyph.x + slot.bitmap_left

/-- The third argument of the `drawGlyph` call of `Layout::draw` (line 256). -/
def drawTop (y0 : Int) (glyph : LayoutGlyph) (slot : FT_GlyphSlotRec) : Int :=
  y0 + roundCoord glyph.y - slot.bitmap_top

/-- The two engine calls of the loop of `Layout::draw` (lines 252-253), `FT_Load_Glyph` then
`FT_Render_Glyph`: the engine state they leave.  Both `FT_Error`s are stored and never
read. -/
def renderGlyph {S : Type} (E : Engine S) (σ : S) (face : FT_Face) (glyph_id : Nat)
    (load_flags : Int) : S :=
  let (_error, σ) := E.FT_Load_Glyph σ face glyph_id load_flags
  let (_error, σ) := E.FT_Render_Glyph σ face
  σ

/-- The body of the loop of `Layout::draw` (lines 250-256) for one glyph; `none` when
`mFaces[glyph.font_ix]` is outside the vector or `drawGlyph` leaves a buffer. -/
def drawGlyphStep {S : Type} (E : Engine S) (mFaces : List FT_Face) (load_flags x0 y0 : Int)
    (st : Bitmap × S) (glyph : LayoutGlyph) : Option (Bitmap × S) :=
  match vecAt mFaces glyph.font_ix with
  | none => none
  | some face =>
    let σ := renderGlyph E st.2 face glyph.glyph_id load_flags
    let slot := E.glyph σ face
    match st.1.drawGlyph slot.bitmap (drawLeft x0 glyph slot) (drawTop y0 glyph slot) with
    | none => none
    | some surface => some (surface, σ)

/-- The method `Layout::draw(surface, x0, y0)` (lines 241-258): the surface and the engine
state left. -/
def Layout.draw {S : Type} (E : Engine S) (self : Layout) (σ : S) (surface : Bitmap)
    (x0 y0 : Int) : Option (Bitmap × S) :=
  self.mGlyphs.foldlM (drawGlyphStep E self.mFaces (loadFlags self.mProps) x0 y0) (surface, σ)

/-- The calls `findFace(face)` for the faces of a list, one after another: the indices
returned, in call order, and the layout and engine state left. -/
def findFaces {S : Type} (E : Engine S) : Layout → S → List FT_Face → List Int × Layout × S
  | L, σ, [] => ([], L, σ)
  | L, σ, face :: rest =>
    ((L.findFace E σ face).1 ::
        (findFaces E (L.findFace E σ face).2.1 (L.findFace E σ face).2.2 rest).1,
      (findFaces E (L.findFace E σ face).2.1 (L.findFace E σ face).2.2 rest).2)

/-- The rank of `face` among the distinct faces of `faces` in first-encounter order: the
number of distinct faces that occur before the first occurrence of `face`. -/
def rank (faces : List FT_Face) (face : FT_Face) : Nat :=
  ((faces.take (faces.indexOf face)).toFinset).card

/-- The face table that grows from `table` when the faces of a list are met in turn, a face
being appended when it is not in the table yet. -/
def seen (table : List FT_Face) (faces : List FT_Face) : List FT_Face :=
  faces.foldl (fun acc f => if f ∈ acc then acc else acc ++ [f]) table

/-- The runs as the loop of `Layout::doLayout` shapes them one after another from the state
`st`: what the engines answered, in run order. -/
def shapedRuns {S : Type} (E : Engine S) (buf : List Nat) :
    LayoutState S → List Run → List ShapedRun
  | _, [] => []
  | st, run :: rest =>
    match shapeRun E buf st run with
    | none => []
    | some (sr, st1) =>
      sr :: shapedRuns E buf (sr.shaped.foldl (layoutGlyph sr.font_ix) st1) rest

/-- The pen `x` after the shaped glyphs `gs` from the pen `x`: the advances added one by one
as `float`s. -/
def penAfter (x : ℚ) (gs : List ShapedGlyph) : ℚ :=
  (gs.map (fun g => HBFixedToFloat g.x_advance)).foldl fadd x

/-- The glyphs one run contributes from the pen `(x, y)`, each tagged with the run's
`font_ix`. -/
def glyphsFrom (font_ix : Int) (x y : ℚ) : List ShapedGlyph → List LayoutGlyph
  | [] => []
  | g :: rest =>
    { font_ix := font_ix, glyph_id := g.codepoint, x := fadd x (HBFixedToFloat g.x_offset),
      y := fadd y (HBFixedToFloat g.y_offset) } ::
      glyphsFrom font_ix (fadd x (HBFixedToFloat g.x_advance)) y rest

/-- The glyphs a sequence of shaped runs contributes from the pen `(x, y)`, the pen carried
from run to run. -/
def glyphsOf (x y : ℚ) : List ShapedRun → List LayoutGlyph
  | [] => []
  | sr :: rest => glyphsFrom sr.font_ix x y sr.shaped ++ glyphsOf (penAfter x sr.shaped) y rest

/-- The glyph id and the position of a glyph, its font index left out. -/
def glyphPos (g : LayoutGlyph) : Nat × ℚ × ℚ := (g.glyph_id, g.x, g.y)

/-- The runs of one `doLayout` call as it shapes them: the answers of `itemize`, `findFace`
and the shaping engine, in run order. -/
def doLayoutRuns {S : Type} (E : Engine S) (L : Layout) (σ : S) (buf : List Nat) :
    List ShapedRun :=
  shapedRuns E buf (doLayoutInit L σ) (L.mCollection.itemize buf (styleFromCss L.mProps))

/-- The shaping handle `findFace` makes for a face it has not met (lines 176-179): bound to
the face, `ppem` and scale set from the font size of the properties. -/
def hbFontFor (mProps : CssProperties) (face : FT_Face) : hb_font_t :=
  hb_font_set_scale
    (hb_font_set_ppem (create_hb_font face)
      (truncToInt (mProps.value CssTag.fontSize).getFloatValue)
      (truncToInt (mProps.value CssTag.fontSize).getFloatValue))
    (HBFloatToFixed (toFloat (mProps.value CssTag.fontSize).getFloatValue))
    (HBFloatToFixed (toFloat (mProps.value CssTag.fontSize).getFloatValue))

/-- Stated from the specification (sections 4.1 to 4.3), not from the code: what the engines
answer when the runs are resolved and shaped one after another.  From the table of the faces
met so far and the engine state `σ`, a run whose face is in the table has the index of the
face there; a run whose face is new has the next index, the face is added to the table and
`FT_Set_Pixel_Sizes` is called for it.  The run is then shaped by `hb_shape` with the handle
of its face over the code units `[start, end)`, and the next run goes on from the engine
state the shaping leaves. -/
def engineRuns {S : Type} (E : Engine S) (mProps : CssProperties) (buf : List Nat) :
    List FT_Face → S → List Run → List ShapedRun
  | _, _, [] => []
  | table, σ, run :: rest =>
    { run := run, font_ix := (table.indexOf run.font : Int),
      shaped := (E.hb_shape
        (if run.font ∈ table then σ
          else (E.FT_Set_Pixel_Sizes σ run.font 0
            (truncToInt (mProps.value CssTag.fontSize).getFloatValue)).2)
        (hbFontFor mProps run.font) buf run.start (run.end_ - run.start)).1 } ::
      engineRuns E mProps buf (if run.font ∈ table then table else table ++ [run.font])
        (E.hb_shape
          (if run.font ∈ table then σ
            else (E.FT_Set_Pixel_Sizes σ run.font 0
              (truncToInt (mProps.value CssTag.fontSize).getFloatValue)).2)
          (hbFontFor mProps run.font) buf run.start (run.end_ - run.start)).2 rest

/-- The shaped glyphs of one layout pass of `L` over `buf` from the engine state `σ`: the
answers of `hb_shape` for the runs of `itemize`, from an empty face table, run after run and
in engine-returned order within a run. -/
def engineShaped {S : Type} (E : Engine S) (L : Layout) (σ : S) (buf : List Nat) :
    List ShapedGlyph :=
  ((engineRuns E L.mProps buf [] σ
    (L.mCollection.itemize buf (styleFromCss L.mProps))).map (fun sr => sr.shaped)).flatten

/-- The first part of the loop body of `doLayout` asks the engines as `engineRuns` does: from
a state whose handle table holds the handle of every face of its face table, `shapeRun`
returns, with the index of the run's face, with the answer of `hb_shape` for the handle of
that face (from the engine state `FT_Set_Pixel_Sizes` leaves when the face is new), and in a
state with the face in the table and the engine state the shaping left. -/
def ShapesByEngine {S : Type} (E : Engine S) (buf : List Nat) : Prop :=
  ∀ (st : LayoutState S) (run : Run),
    st.layout.mHbFonts = st.layout.mFaces.map (hbFontFor st.layout.mProps) →
    ∃ st1, shapeRun E buf st run
      = some ({ run := run, font_ix := (st.layout.mFaces.indexOf run.font : Int),
                shaped := (E.hb_shape
                  (if run.font ∈ st.layout.mFaces then st.σ
                    else (E.FT_Set_Pixel_Sizes st.σ run.font 0
                      (truncToInt (st.layout.mProps.value CssTag.fontSize).getFloatValue)).2)
                  (hbFontFor st.layout.mProps run.font) buf run.start
                  (run.end_ - run.start)).1 }, st1) ∧
      st1.layout.mFaces
        = (if run.font ∈ st.layout.mFaces then st.layout.mFaces
            else st.layout.mFaces ++ [run.font]) ∧
      st1.layout.mHbFonts = st1.layout.mFaces.map (hbFontFor st.layout.mProps) ∧
      st1.layout.mProps = st.layout.mProps ∧
      st1.σ = (E.hb_shape
        (if run.font ∈ st.layout.mFaces then st.σ
          else (E.FT_Set_Pixel_Sizes st.σ run.font 0
            (truncToInt (st.layout.mProps.value CssTag.fontSize).getFloatValue)).2)
        (hbFontFor st.layout.mProps run.font) buf run.start (run.end_ - run.start)).2

/-- The engine `E` with the error codes of `FT_Set_Pixel_Sizes` replaced by those of `err`,
everything else as in `E`. -/
def withSizeError {S : Type} (E : Engine S) (err : S → FT_Face → Int → Int → FT_Error) :
    Engine S :=
  { E with
    FT_Set_Pixel_Sizes := fun σ face w h => (err σ face w h, (E.FT_Set_Pixel_Sizes σ face w h).2) }

/-- A sample engine without state: `FT_Set_Pixel_Sizes` fails with error 1, every run is
shaped to the single glyph 42. -/
def sampleEngine : Engine Unit where
  FT_Set_Pixel_Sizes := fun σ _ _ _ => (1, σ)
  FT_Load_Glyph := fun σ _ _ _ => (0, σ)
  FT_Render_Glyph := fun σ _ => (0, σ)
  glyph := fun _ _ =>
    { bitmap := ⟨1, 1, [255]⟩, bitmap_left := 0, bitmap_top := 0, advance_x := 0 }
  hb_shape := fun σ _ _ _ _ =>
    ([{ codepoint := 42, x_advance := 0, y_advance := 0, x_offset := 0, y_offset := 0 }], σ)

/-- A sample layout: no property set, a collection that makes the whole text one run of
font 7, nothing laid out yet. -/
def sampleLayout : Layout where
  mProps := { hasTag := fun _ => false,
              value := fun _ => { getFloatValue := 0, getIntValue := 0 } }
  mGlyphs := []
  mCollection := { itemize := fun buf _ => [{ font := 7, start := 0, end_ := buf.length }] }
  mFaces := []
  mHbFonts := []

/-- A sample layout after a layout pass: one glyph of font 7 at `x = 0`, `y = 1`. -/
def sampleLaidOut : Layout :=
  { sampleLayout with
    mGlyphs := [{ font_ix := 0, glyph_id := 42, x := 0, y := 1 }]
    mFaces := [7]
    mHbFonts := [create_hb_font 7] }

/-- The exact sum of the `x_advance` values, in fixed-point units, of the first `k` of the
shaped glyphs `gs`. -/
def advanceSum (gs : List ShapedGlyph) (k : Nat) : Int :=
  ((gs.take k).map (fun g => g.x_advance)).sum

/-- Conversion of an integer to the 32-bit `hb_position_t`: the value modulo `2 ^ 32` in
`[-2 ^ 31, 2 ^ 31)`. -/
def wrapInt32 (v : Int) : Int := (v + 2 ^ 31) % 2 ^ 32 - 2 ^ 31

/-- The function `ft_pos_to_hb(pos)` (lines 105-107): `pos << 2`, returned as an
`hb_position_t`. -/
def ft_pos_to_hb (pos : Int) : Int := wrapInt32 (pos <<< (2 : Int))

/-- The callback `harfbuzzGetGlyphHorizontalAdvance` (lines 109-116) for the face passed as
`fontData`: the advance returned and the engine state left.  The result of `FT_Load_Glyph`
is not read. -/
def harfbuzzGetGlyphHorizontalAdvance {S : Type} (E : Engine S) (σ : S) (ftFace : FT_Face)
    (glyph : Nat) : Int × S :=
  let (_error, σ) := E.FT_Load_Glyph σ ftFace glyph FT_LOAD_DEFAULT
  (ft_pos_to_hb (E.glyph σ ftFace).advance_x, σ)

/-- The engine `E` with the error codes of `FT_Load_Glyph` and `FT_Render_Glyph` replaced by
those of `errLoad` and `errRender`, everything else as in `E`. -/
def withGlyphErrors {S : Type} (E : Engine S) (errLoad : S → FT_Face → Nat → Int → FT_Error)
    (errRender : S → FT_Face → FT_Error) : Engine S :=
  { E with
    FT_Load_Glyph := fun σ face g flags => (errLoad σ face g flags, (E.FT_Load_Glyph σ face g flags).2)
    FT_Render_Glyph := fun σ face => (errRender σ face, (E.FT_Render_Glyph σ face).2) }

/-- A sample engine whose `FT_Load_Glyph` and `FT_Render_Glyph` always fail with error 1,
the glyph slot of every face holding a one-pixel bitmap of coverage 255. -/
def failingRenderEngine : Engine Unit :=
  withGlyphErrors sampleEngine (fun _ _ _ _ => 1) (fun _ _ => 1)

/-- A sample layout after a layout pass: one glyph of font 7 at `x = 0`, `y = 0`. -/
def sampleLaidOutOrigin : Layout :=
  { sampleLayout with
    mGlyphs := [{ font_ix := 0, glyph_id := 42, x := 0, y := 0 }]
    mFaces := [7]
    mHbFonts := [create_hb_font 7] }

/-- A sample layout whose collection returns no run, with a glyph list and tables left by
an earlier pass. -/
def sampleNoRuns : Layout :=
  { sampleLaidOut with mCollection := { itemize := fun _ _ => [] } }

/-- The engine `E` that also keeps a record of its `FT_Load_Glyph` calls: the face, the glyph
and the load flags of each call, in call order.  Everything else is as in `E`. -/
def recordLoads {S : Type} (E : Engine S) : Engine (S × List (FT_Face × Nat × Int)) where
  FT_Set_Pixel_Sizes := fun σ face w h =>
    ((E.FT_Set_Pixel_Sizes σ.1 face w h).1, ((E.FT_Set_Pixel_Sizes σ.1 face w h).2, σ.2))
  FT_Load_Glyph := fun σ face g flags =>
    ((E.FT_Load_Glyph σ.1 face g flags).1,
      ((E.FT_Load_Glyph σ.1 face g flags).2, σ.2 ++ [(face, g, flags)]))
  FT_Render_Glyph := fun σ face =>
    ((E.FT_Render_Glyph σ.1 face).1, ((E.FT_Render_Glyph σ.1 face).2, σ.2))
  glyph := fun σ face => E.glyph σ.1 face
  hb_shape := fun σ font buf start len =>
    ((E.hb_shape σ.1 font buf start len).1, ((E.hb_shape σ.1 font buf start len).2, σ.2))

/-- A sample engine without state that shapes every run to the single glyph 42 with the
horizontal offset `2 ^ 24 + 1`, everything else as in `sampleEngine`. -/
def wideOffsetEngine : Engine Unit :=
  { sampleEngine with
    hb_shape := fun σ _ _ _ _ =>
      ([{ codepoint := 42, x_advance := 0, y_advance := 0, x_offset := 16777217,
          y_offset := 0 }], σ) }

/-- A sample layout after a layout pass: one glyph of font 7 at `x = 2.5`, `y = 0`. -/
def sampleLaidOutHalf : Layout :=
  { sampleLayout with
    mGlyphs := [{ font_ix := 0, glyph_id := 42, x := 5 / 2, y := 0 }]
    mFaces := [7]
    mHbFonts := [create_hb_font 7] }

/-! ## Predicates used to state the behaviour of `drawGlyph` -/

/-- Saturating blend of two coverage values. -/
def blend (d s : Nat) : Nat := min 255 (d + s)

/-- What the inner loop of `drawGlyph` has done to the buffer `buf0` after its first `k`
iterations: the bytes `dst + x0 .. dst + x0 + k - 1` are blended, the others untouched. -/
def RowInv (srcBuf : List Nat) (x src dst x0 : Int) (buf0 : List Nat) (k : Nat)
    (buf' : List Nat) : Prop :=
  buf'.length = buf0.length ∧ ∀ i : Int,
    ((dst + x0 ≤ i ∧ i < dst + x0 + k) →
      ∃ d s, readAt buf0 i = some d ∧ readAt srcBuf (src + (i - dst - x)) = some s ∧
        readAt buf' i = some (blend d s)) ∧
    (¬ (dst + x0 ≤ i ∧ i < dst + x0 + k) → readAt buf' i = readAt buf0 i)

/-- How one byte may have changed under blending: it is untouched, or it grew to at most
255. -/
def Grew (d d' : Nat) : Prop := d' = d ∨ (min d 255 ≤ d' ∧ d' ≤ 255)

/-- What the outer loop of `drawGlyph` has done after its first `k` rows. -/
def RowsInv (srcBuf : List Nat) (x x0 x1 bmw width src0 dst0 : Int) (buf0 : List Nat)
    (k : Nat) (st : DrawState) : Prop :=
  st.src = src0 + k * bmw ∧ st.dst = dst0 + k * width ∧ st.buf.length = buf0.length ∧
  (∀ r xx : Int, 0 ≤ xx → xx < width →
    ((0 ≤ r ∧ r < k ∧ x0 ≤ xx ∧ xx < x1) →
      ∃ d s, readAt buf0 (dst0 + r * width + xx) = some d ∧
        readAt srcBuf (src0 + r * bmw + (xx - x)) = some s ∧
        readAt st.buf (dst0 + r * width + xx) = some (blend d s)) ∧
    (¬ (0 ≤ r ∧ r < k ∧ x0 ≤ xx ∧ xx < x1) →
      readAt st.buf (dst0 + r * width + xx) = readAt buf0 (dst0 + r * width + xx))) ∧
  (∀ (i : Int) (d : Nat), readAt buf0 i = some d →
    ∃ d', readAt st.buf i = some d' ∧ Grew d d') ∧
  (∀ i : Int, (∀ r xx : Int, 0 ≤ r → r < k → x0 ≤ xx → xx < x1 →
      i ≠ dst0 + r * width + xx) → readAt st.buf i = readAt buf0 i)

/-- The clip rectangle of `drawGlyph`: the pixels of the surface the loops visit. -/
def InClip (self : Bitmap) (bitmap : FT_Bitmap) (x y xx yy : Int) : Prop :=
  max 0 x ≤ xx ∧ xx < min self.width (x + bitmap.width) ∧
    max 0 y ≤ yy ∧ yy < min self.height (y + bitmap.rows)

/-- Membership in the clip rectangle is decidable. -/
instance instDecidableInClip (self : Bitmap) (bitmap : FT_Bitmap) (x y xx yy : Int) :
    Decidable (InClip self bitmap x y xx yy) := by
  unfold InClip
  infer_instance

/-- The index into the source buffer that `drawGlyph` reads for the surface pixel
`(xx, yy)`. -/
def srcIndex (bitmap : FT_Bitmap) (x y xx yy : Int) : Int :=
  (yy - y) * bitmap.width + (xx - x) + (max 0 x - x)

/-- The value `drawGlyph` leaves at the surface pixel `(xx, yy)`. -/
def drawnPixel (self : Bitmap) (bitmap : FT_Bitmap) (x y xx yy : Int) : Option Nat :=
  if InClip self bitmap x y xx yy then
    (self.pixel xx yy).bind (fun d =>
      (readAt bitmap.buffer (srcIndex bitmap x y xx yy)).map (fun s => blend d s))
  else self.pixel xx yy

/-! ## Lemmas on loops and buffers -/

theorem foldlM_range_inv {σ : Type} (f : Nat → σ → Option σ) (P : Nat → σ → Prop) :
    ∀ (n : Nat) (s s' : σ), P 0 s →
      (∀ k, k < n → ∀ a b, P k a → f k a = some b → P (k + 1) b) →
      (List.range n).foldlM (fun st k => f k st) s = some s' → P n s' := by
  intro n
  induction n with
  | zero =>
    intro s s' h0 _ h
    simp at h
    subst h
    exact h0
  | succ n ih =>
    intro s s' h0 hstep h
    rw [List.range_succ, List.foldlM_append] at h
    cases hm : (List.range n).foldlM (fun st k => f k st) s with
    | none => rw [hm] at h; simp at h
    | some m =>
      rw [hm] at h
      have hPm : P n m := ih s m h0 (fun k hk => hstep k (Nat.lt_succ_of_lt hk)) hm
      simp at h
      exact hstep n (Nat.lt_succ_self n) m s' hPm h

theorem foldlM_range_some {σ : Type} (f : Nat → σ → Option σ) (P : Nat → σ → Prop) :
    ∀ (n : Nat) (s : σ), P 0 s →
      (∀ k, k < n → ∀ a, P k a → ∃ b, f k a = some b ∧ P (k + 1) b) →
      ∃ s', (List.range n).foldlM (fun st k => f k st) s = some s' ∧ P n s' := by
  intro n
  induction n with
  | zero =>
    intro s h0 _
    exact ⟨s, by simp, h0⟩
  | succ n ih =>
    intro s h0 hstep
    obtain ⟨m, hm, hPm⟩ := ih s h0 (fun k hk => hstep k (Nat.lt_succ_of_lt hk))
    obtain ⟨b, hb, hPb⟩ := hstep n (Nat.lt_succ_self n) m hPm
    refine ⟨b, ?_, hPb⟩
    rw [List.range_succ, List.foldlM_append, hm]
    simp [hb]

theorem readAt_eq_some {mem : List Nat} {i : Int} {v : Nat} (h : readAt mem i = some v) :
    0 ≤ i ∧ i.toNat < mem.length := by
  unfold readAt at h
  split at h
  · rename_i h0
    refine ⟨h0, ?_⟩
    by_contra hlt
    rw [List.getElem?_eq_none (by omega)] at h
    simp at h
  · simp at h

theorem readAt_isSome (mem : List Nat) {i : Int} (h0 : 0 ≤ i) (h1 : i < mem.length) :
    ∃ v, readAt mem i = some v ∧ v ∈ mem := by
  have hlt : i.toNat < mem.length := by omega
  refine ⟨mem[i.toNat], ?_, List.getElem_mem _⟩
  simp [readAt, h0, List.getElem?_eq_getElem hlt]

theorem readAt_mem {mem : List Nat} {i : Int} {v : Nat} (h : readAt mem i = some v) :
    v ∈ mem := by
  obtain ⟨h0, h1⟩ := readAt_eq_some h
  obtain ⟨w, hw, hmem⟩ := readAt_isSome mem h0 (by omega)
  rw [h] at hw
  cases hw
  exact hmem

theorem readAt_set (mem : List Nat) (n : Nat) (v : Nat) (i : Int) :
    readAt (mem.set n v) i
      = if 0 ≤ i ∧ i.toNat = n ∧ n < mem.length then some v else readAt mem i := by
  unfold readAt
  by_cases h0 : 0 ≤ i
  · by_cases hn : i.toNat = n
    · by_cases hl : n < mem.length
      · simp [h0, hn, hl]
      · have : mem.length ≤ n := by omega
        simp [h0, hn, hl, List.getElem?_eq_none, this]
    · have hne : n ≠ i.toNat := fun h => hn h.symm
      simp [h0, hn, List.getElem?_set_ne hne]
  · simp [h0]

theorem store_eq_blend (d s : Nat) :
    (if d + s > 0xff then 0xff else d + s) % 256 = blend d s := by
  unfold blend
  split <;> omega

theorem drawGlyphPixel_eq_some {srcBuf : List Nat} {x src dst xx : Int} {buf buf' : List Nat}
    (h : drawGlyphPixel srcBuf x src dst xx buf = some buf') :
    ∃ d s, readAt buf (dst + xx) = some d ∧ readAt srcBuf (src + (xx - x)) = some s ∧
      buf' = buf.set (dst + xx).toNat (blend d s) := by
  unfold drawGlyphPixel at h
  cases hd : readAt buf (dst + xx) with
  | none => simp [hd] at h
  | some d =>
    cases hs : readAt srcBuf (src + (xx - x)) with
    | none => simp [hd, hs] at h
    | some s =>
      obtain ⟨h0, h1⟩ := readAt_eq_some hd
      simp only [hd, hs, store_eq_blend, writeAt, h0, h1, and_self, if_true] at h
      exact ⟨d, s, rfl, rfl, (Option.some.inj h).symm⟩

theorem drawGlyphPixel_some {srcBuf : List Nat} {x src dst xx : Int} {buf : List Nat}
    {d s : Nat} (hd : readAt buf (dst + xx) = some d)
    (hs : readAt srcBuf (src + (xx - x)) = some s) :
    drawGlyphPixel srcBuf x src dst xx buf = some (buf.set (dst + xx).toNat (blend d s)) := by
  obtain ⟨h0, h1⟩ := readAt_eq_some hd
  simp [drawGlyphPixel, hd, hs, store_eq_blend, writeAt, h0, h1]

theorem rowInv_step {srcBuf : List Nat} {x src dst x0 : Int} {buf0 : List Nat} {k : Nat}
    {a b : List Nat} (hP : RowInv srcBuf x src dst x0 buf0 k a)
    (hb : drawGlyphPixel srcBuf x src dst (x0 + (k : Int)) a = some b) :
    RowInv srcBuf x src dst x0 buf0 (k + 1) b := by
  obtain ⟨d, s, hd, hs, rfl⟩ := drawGlyphPixel_eq_some hb
  obtain ⟨hlen, hP⟩ := hP
  obtain ⟨h0, h1⟩ := readAt_eq_some hd
  have hold : readAt a (dst + (x0 + (k : Int))) = readAt buf0 (dst + (x0 + (k : Int))) :=
    (hP _).2 (by omega)
  refine ⟨by simp [hlen], fun i => ⟨fun hi => ?_, fun hi => ?_⟩⟩
  · rw [readAt_set]
    by_cases hik : i = dst + (x0 + (k : Int))
    · subst hik
      refine ⟨d, s, by rw [← hold]; exact hd, ?_, by simp [h0, h1]⟩
      rw [← hs]
      congr 1
      ring
    · obtain ⟨d', s', hd', hs', hr⟩ := (hP i).1 (by push_cast at hi; omega)
      refine ⟨d', s', hd', hs', ?_⟩
      rw [if_neg (by omega)]
      exact hr
  · rw [readAt_set, if_neg (by push_cast at hi; omega)]
    exact (hP i).2 (by push_cast at hi; omega)

theorem forLoop_row_spec {srcBuf : List Nat} {x src dst x0 x1 : Int} {buf0 buf' : List Nat}
    (h : forLoop x0 x1 (fun xx buf => drawGlyphPixel srcBuf x src dst xx buf) buf0
      = some buf') :
    RowInv srcBuf x src dst x0 buf0 (x1 - x0).toNat buf' := by
  unfold forLoop at h
  refine foldlM_range_inv (fun k st => drawGlyphPixel srcBuf x src dst (x0 + (k : Int)) st)
    (RowInv srcBuf x src dst x0 buf0) _ buf0 buf' ?_ ?_ h
  · exact ⟨rfl, fun i => ⟨fun hi => by omega, fun _ => rfl⟩⟩
  · intro k _ a b hP hb
    exact rowInv_step hP hb

theorem forLoop_row_some {srcBuf : List Nat} {x src dst x0 x1 : Int} {buf0 : List Nat}
    (hdst : ∀ i : Int, dst + x0 ≤ i → i < dst + x1 → 0 ≤ i ∧ i < buf0.length)
    (hsrc : ∀ xx : Int, x0 ≤ xx → xx < x1 →
      0 ≤ src + (xx - x) ∧ src + (xx - x) < srcBuf.length) :
    ∃ buf', forLoop x0 x1 (fun xx buf => drawGlyphPixel srcBuf x src dst xx buf) buf0
      = some buf' := by
  unfold forLoop
  obtain ⟨b, hb, _⟩ := foldlM_range_some
    (fun k st => drawGlyphPixel srcBuf x src dst (x0 + (k : Int)) st)
    (RowInv srcBuf x src dst x0 buf0) (x1 - x0).toNat buf0
    ⟨rfl, fun i => ⟨fun hi => by omega, fun _ => rfl⟩⟩ (by
      intro k hk a hP
      have hi := hdst (dst + (x0 + (k : Int))) (by omega) (by omega)
      have hs := hsrc (x0 + (k : Int)) (by omega) (by omega)
      obtain ⟨d, hd, _⟩ := readAt_isSome a hi.1 (by rw [hP.1]; exact hi.2)
      obtain ⟨s, hs', _⟩ := readAt_isSome srcBuf hs.1 hs.2
      refine ⟨_, drawGlyphPixel_some hd hs', ?_⟩
      exact rowInv_step hP (drawGlyphPixel_some hd hs'))
  exact ⟨b, hb⟩

theorem idx_bound {r c h w : Int} (hr0 : 0 ≤ r) (hr1 : r < h) (hc0 : 0 ≤ c) (hc1 : c < w) :
    0 ≤ r * w + c ∧ r * w + c < h * w := by
  have hw : 0 ≤ w := by omega
  have h1 : 0 ≤ r * w := mul_nonneg hr0 hw
  have h2 : (r + 1) * w ≤ h * w := mul_le_mul_of_nonneg_right (by omega) hw
  constructor
  · omega
  · have : (r + 1) * w = r * w + w := by ring
    omega

theorem row_sep {r k w : Int} (hw : 0 ≤ w) :
    (r < k → r * w + w ≤ k * w) ∧ (k < r → k * w + w ≤ r * w) := by
  constructor
  · intro h
    have h2 : (r + 1) * w ≤ k * w := mul_le_mul_of_nonneg_right (by omega) hw
    have : (r + 1) * w = r * w + w := by ring
    omega
  · intro h
    have h2 : (k + 1) * w ≤ r * w := mul_le_mul_of_nonneg_right (by omega) hw
    have : (k + 1) * w = k * w + w := by ring
    omega

theorem drawGlyphRow_eq_some {srcBuf : List Nat} {x x0 x1 bmw width : Int}
    {st st' : DrawState} (h : drawGlyphRow srcBuf x x0 x1 bmw width st = some st') :
    ∃ buf, forLoop x0 x1 (fun xx buf => drawGlyphPixel srcBuf x st.src st.dst xx buf) st.buf
        = some buf ∧
      st' = { src := st.src + bmw, dst := st.dst + width, buf := buf } := by
  unfold drawGlyphRow at h
  cases hf : forLoop x0 x1 (fun xx buf => drawGlyphPixel srcBuf x st.src st.dst xx buf) st.buf
    with
  | none => simp [hf] at h
  | some buf =>
    simp only [hf] at h
    exact ⟨buf, rfl, (Option.some.inj h).symm⟩

theorem rowsInv_zero (srcBuf : List Nat) (x x0 x1 bmw width src0 dst0 : Int)
    (buf0 : List Nat) :
    RowsInv srcBuf x x0 x1 bmw width src0 dst0 buf0 0
      { src := src0, dst := dst0, buf := buf0 } := by
  refine ⟨by simp, by simp, rfl, fun r xx _ _ => ⟨fun h => ?_, fun _ => rfl⟩,
    fun i d hd => ⟨d, hd, Or.inl rfl⟩, fun _ _ => rfl⟩
  simp at h
  omega

theorem rowsInv_step {srcBuf : List Nat} {x x0 x1 bmw width src0 dst0 : Int}
    {buf0 : List Nat} {k : Nat} {st st' : DrawState} (hx0 : 0 ≤ x0) (hx1 : x1 ≤ width)
    (hP : RowsInv srcBuf x x0 x1 bmw width src0 dst0 buf0 k st)
    (h : drawGlyphRow srcBuf x x0 x1 bmw width st = some st') :
    RowsInv srcBuf x x0 x1 bmw width src0 dst0 buf0 (k + 1) st' := by
  obtain ⟨buf, hf, rfl⟩ := drawGlyphRow_eq_some h
  obtain ⟨hlen, hrow⟩ := forLoop_row_spec hf
  obtain ⟨hsrc, hdst, hl, hpix, hgrew, hflat⟩ := hP
  refine ⟨?_, ?_, by simp [hlen, hl], ?_, ?_, ?_⟩
  · simp only [hsrc]; push_cast; ring
  · simp only [hdst]; push_cast; ring
  · intro r xx hxx0 hxx1
    have hw : 0 ≤ width := by omega
    obtain ⟨hsep1, hsep2⟩ := row_sep (r := r) (k := (k : Int)) hw
    simp only
    by_cases hin : st.dst + x0 ≤ dst0 + r * width + xx ∧
        dst0 + r * width + xx < st.dst + x0 + ((x1 - x0).toNat : Int)
    · -- the pixel belongs to the row just drawn
      have hrk : r = (k : Int) := by
        rw [hdst] at hin
        by_contra hne
        rcases lt_or_gt_of_ne hne with hlt | hgt
        · have := hsep1 hlt; omega
        · have := hsep2 hgt; omega
      subst hrk
      have hxr : x0 ≤ xx ∧ xx < x1 := by rw [hdst] at hin; omega
      obtain ⟨d1, s, hd1, hs, hnew⟩ := (hrow _).1 hin
      have hold := (hpix (k : Int) xx hxx0 hxx1).2 (by omega)
      refine ⟨fun _ => ⟨d1, s, by rw [← hold]; exact hd1, ?_, hnew⟩, fun hn => ?_⟩
      · rw [← hs, hsrc, hdst]
        congr 1
        ring
      · exfalso; apply hn; push_cast; omega
    · have hnew := (hrow _).2 hin
      rw [hnew]
      constructor
      · intro hr
        have hrk : r < (k : Int) := by
          by_contra hge
          have hrk : r = (k : Int) := by push_cast at hr; omega
          subst hrk
          apply hin
          rw [hdst]
          omega
        exact (hpix r xx hxx0 hxx1).1 ⟨hr.1, hrk, hr.2.2⟩
      · intro hr
        exact (hpix r xx hxx0 hxx1).2 (fun hc => hr ⟨hc.1, by push_cast; omega, hc.2.2⟩)
  · intro i d hd
    obtain ⟨d', hd', hg⟩ := hgrew i d hd
    by_cases hin : st.dst + x0 ≤ i ∧ i < st.dst + x0 + ((x1 - x0).toNat : Int)
    · obtain ⟨d1, s, hd1, _, hnew⟩ := (hrow i).1 hin
      rw [hd'] at hd1
      cases hd1
      refine ⟨_, hnew, Or.inr ?_⟩
      unfold blend
      rcases hg with rfl | ⟨hg1, hg2⟩ <;> omega
    · exact ⟨d', by rw [(hrow i).2 hin]; exact hd', hg⟩
  · intro i hi
    have hin : ¬ (st.dst + x0 ≤ i ∧ i < st.dst + x0 + ((x1 - x0).toNat : Int)) := by
      intro hin
      apply hi (k : Int) (i - dst0 - k * width) (by omega) (by push_cast; omega)
        (by rw [hdst] at hin; omega) (by rw [hdst] at hin; omega)
      ring
    rw [(hrow i).2 hin]
    exact hflat i (fun r xx h0 h1 h2 h3 => hi r xx h0 (by push_cast; omega) h2 h3)

theorem drawGlyph_rowsInv {self s' : Bitmap} {bitmap : FT_Bitmap} {x y : Int}
    (h : self.drawGlyph bitmap x y = some s') :
    ∃ st, s' = { self with buf := st.buf } ∧
      RowsInv bitmap.buffer x (max 0 x) (min self.width (x + bitmap.width)) bitmap.width
        self.width ((max 0 y - y) * bitmap.width + (max 0 x - x)) (max 0 y * self.width)
        self.buf (min self.height (y + bitmap.rows) - max 0 y).toNat st := by
  unfold Bitmap.drawGlyph at h
  simp only at h
  split at h
  · rename_i st hst
    refine ⟨st, (Option.some.inj h).symm, ?_⟩
    unfold forLoop at hst
    refine foldlM_range_inv
      (fun _ st => drawGlyphRow bitmap.buffer x (max 0 x) (min self.width (x + bitmap.width))
        bitmap.width self.width st)
      (RowsInv bitmap.buffer x (max 0 x) (min self.width (x + bitmap.width)) bitmap.width
        self.width ((max 0 y - y) * bitmap.width + (max 0 x - x)) (max 0 y * self.width)
        self.buf) _ _ st (rowsInv_zero _ _ _ _ _ _ _ _ _) ?_ hst
    intro k _ a b hP hb
    exact rowsInv_step (le_max_left 0 x) (min_le_left _ _) hP hb
  · simp at h

theorem drawGlyph_spec {self s' : Bitmap} {bitmap : FT_Bitmap} {x y : Int}
    (h : self.drawGlyph bitmap x y = some s') :
    s'.width = self.width ∧ s'.height = self.height ∧ s'.buf.length = self.buf.length ∧
    (∀ xx yy : Int, 0 ≤ xx → xx < self.width →
      (InClip self bitmap x y xx yy →
        ∃ d s, self.pixel xx yy = some d ∧
          readAt bitmap.buffer ((yy - y) * bitmap.width + (xx - x) + (max 0 x - x)) = some s ∧
          s'.pixel xx yy = some (blend d s)) ∧
      (¬ InClip self bitmap x y xx yy → s'.pixel xx yy = self.pixel xx yy)) ∧
    (∀ (i : Int) (d : Nat), readAt self.buf i = some d →
      ∃ d', readAt s'.buf i = some d' ∧ Grew d d') := by
  obtain ⟨st, rfl, hsrc, hdst, hl, hpix, hgrew, hflat⟩ := drawGlyph_rowsInv h
  refine ⟨rfl, rfl, hl, ?_, hgrew⟩
  intro xx yy hxx0 hxx1
  have e : max 0 y * self.width + (yy - max 0 y) * self.width + xx = yy * self.width + xx := by
    ring
  have hp := hpix (yy - max 0 y) xx hxx0 hxx1
  rw [e] at hp
  unfold InClip Bitmap.pixel
  constructor
  · intro hc
    obtain ⟨d, s, hd, hs, hnew⟩ := hp.1 (by omega)
    refine ⟨d, s, hd, ?_, hnew⟩
    rw [← hs]
    congr 1
    ring
  · intro hc
    exact hp.2 (fun hr => hc (by omega))

theorem drawGlyph_some {self : Bitmap} {bitmap : FT_Bitmap} {x y : Int} (hw : self.WF)
    (hsrc : ∀ xx yy : Int, InClip self bitmap x y xx yy →
      0 ≤ (yy - y) * bitmap.width + (xx - x) + (max 0 x - x) ∧
      (yy - y) * bitmap.width + (xx - x) + (max 0 x - x) < bitmap.buffer.length) :
    ∃ s', self.drawGlyph bitmap x y = some s' := by
  obtain ⟨hw0, hh0, hlen, _⟩ := hw
  obtain ⟨st, hst, _⟩ := foldlM_range_some
    (fun _ st => drawGlyphRow bitmap.buffer x (max 0 x) (min self.width (x + bitmap.width))
      bitmap.width self.width st)
    (RowsInv bitmap.buffer x (max 0 x) (min self.width (x + bitmap.width)) bitmap.width
      self.width ((max 0 y - y) * bitmap.width + (max 0 x - x)) (max 0 y * self.width)
      self.buf) (min self.height (y + bitmap.rows) - max 0 y).toNat
    { src := (max 0 y - y) * bitmap.width + (max 0 x - x), dst := max 0 y * self.width,
      buf := self.buf }
    (rowsInv_zero _ _ _ _ _ _ _ _ _) (by
      intro k hk a hP
      have hrow : ∃ buf, forLoop (max 0 x) (min self.width (x + bitmap.width))
          (fun xx buf => drawGlyphPixel bitmap.buffer x a.src a.dst xx buf) a.buf
          = some buf := by
        apply forLoop_row_some
        · intro i hi0 hi1
          rw [hP.2.1] at hi0 hi1
          have hb := idx_bound (r := max 0 y + (k : Int)) (c := i - (max 0 y + k) * self.width)
            (h := self.height) (w := self.width) (by omega) (by omega)
            (by
              have : (max 0 y + (k : Int)) * self.width = max 0 y * self.width + k * self.width := by
                ring
              omega)
            (by
              have : (max 0 y + (k : Int)) * self.width = max 0 y * self.width + k * self.width := by
                ring
              omega)
          rw [hP.2.2.1, hlen, mul_comm self.width self.height]
          omega
        · intro xx hx0 hx1
          have hs := hsrc xx (max 0 y + k) ⟨hx0, hx1, by omega, by omega⟩
          rw [hP.1]
          have e : (max 0 y - y) * bitmap.width + (max 0 x - x) + ↑k * bitmap.width + (xx - x)
              = (max 0 y + ↑k - y) * bitmap.width + (xx - x) + (max 0 x - x) := by ring
          rw [e]
          exact hs
      obtain ⟨buf, hbuf⟩ := hrow
      have hb : drawGlyphRow bitmap.buffer x (max 0 x) (min self.width (x + bitmap.width))
          bitmap.width self.width a
          = some { src := a.src + bitmap.width, dst := a.dst + self.width, buf := buf } := by
        simp [drawGlyphRow, hbuf]
      exact ⟨_, hb, rowsInv_step (le_max_left 0 x) (min_le_left _ _) hP hb⟩)
  refine ⟨{ self with buf := st.buf }, ?_⟩
  unfold Bitmap.drawGlyph forLoop
  simp only
  rw [hst]

theorem list_eq_of_readAt {l₁ l₂ : List Nat} (h : ∀ i : Int, readAt l₁ i = readAt l₂ i) :
    l₁ = l₂ := by
  apply List.ext_getElem?
  intro n
  have := h (n : Int)
  simpa [readAt] using this

theorem drawGlyph_noop {self s' : Bitmap} {bitmap : FT_Bitmap} {x y : Int}
    (h : self.drawGlyph bitmap x y = some s')
    (hout : self.width ≤ x ∨ self.height ≤ y ∨ x + bitmap.width ≤ 0 ∨ y + bitmap.rows ≤ 0
      ∨ bitmap.width ≤ 0 ∨ bitmap.rows ≤ 0) :
    s' = self := by
  obtain ⟨st, rfl, hsrc, hdst, hl, hpix, hgrew, hflat⟩ := drawGlyph_rowsInv h
  have : st.buf = self.buf := by
    apply list_eq_of_readAt
    intro i
    apply hflat
    intro r xx h0 h1 h2 h3
    omega
  rw [this]

theorem drawGlyph_some_of_nonneg {self : Bitmap} {bitmap : FT_Bitmap} {x y : Int}
    (hw : self.WF) (hb : bitmap.WF) (hx : 0 ≤ x) : ∃ s', self.drawGlyph bitmap x y = some s' := by
  apply drawGlyph_some hw
  intro xx yy hc
  obtain ⟨h1, h2, h3, h4⟩ := hc
  have hb' := idx_bound (r := yy - y) (c := xx - x) (h := bitmap.rows) (w := bitmap.width)
    (by omega) (by omega) (by omega) (by omega)
  rw [hb.2.2.1]
  have : max 0 x - x = 0 := by omega
  rw [this]
  omega

theorem drawGlyph_some_of_outside {self : Bitmap} {bitmap : FT_Bitmap} {x y : Int}
    (hw : self.WF)
    (hout : self.width ≤ x ∨ self.height ≤ y ∨ x + bitmap.width ≤ 0 ∨ y + bitmap.rows ≤ 0) :
    self.drawGlyph bitmap x y = some self := by
  obtain ⟨s', hs'⟩ := @drawGlyph_some self bitmap x y hw
    (by
      intro xx yy hc
      obtain ⟨h1, h2, h3, h4⟩ := hc
      exfalso
      omega)
  rw [hs', drawGlyph_noop hs' (by omega)]

theorem drawGlyph_wf {self s' : Bitmap} {bitmap : FT_Bitmap} {x y : Int} (hw : self.WF)
    (h : self.drawGlyph bitmap x y = some s') : s'.WF := by
  obtain ⟨hwd, hht, hlen, _, hgrew⟩ := drawGlyph_spec h
  obtain ⟨h0, h1, h2, h3⟩ := hw
  refine ⟨by rw [hwd]; exact h0, by rw [hht]; exact h1, by rw [hlen, hwd, hht]; exact h2, ?_⟩
  intro v hv
  obtain ⟨n, hn, rfl⟩ := List.getElem_of_mem hv
  have hn' : n < self.buf.length := by rw [← hlen]; exact hn
  obtain ⟨d, hd, hdm⟩ := readAt_isSome self.buf (i := (n : Int)) (by omega)
    (by exact_mod_cast hn')
  obtain ⟨d', hd', hg⟩ := hgrew n d hd
  have hd3 := h3 d hdm
  have : s'.buf[n] = d' := by
    have := hd'
    simp [readAt, List.getElem?_eq_getElem hn] at this
    exact this
  rw [this]
  rcases hg with rfl | ⟨_, hg⟩ <;> omega

/-! ## Lemmas on `findFace` -/

theorem findFaceLoop_eq (face : FT_Face) (table : List FT_Face) (ix : Nat) :
    findFaceLoop face table ix
      = if face ∈ table then some (ix + table.indexOf face) else none := by
  induction table generalizing ix with
  | nil => simp [findFaceLoop]
  | cons f rest ih =>
    unfold findFaceLoop
    by_cases hf : f = face
    · subst hf
      simp
    · have hne : ¬ face = f := fun h => hf h.symm
      rw [if_neg hf, ih (ix + 1), List.indexOf_cons_ne _ hf]
      simp only [List.mem_cons, hne, false_or]
      split
      · congr 1
        omega
      · rfl

theorem findFace_spec {S : Type} (E : Engine S) (L : Layout) (σ : S) (face : FT_Face) :
    (L.findFace E σ face).1 = (L.mFaces.indexOf face : Int) ∧
    (L.findFace E σ face).2.1.mFaces
      = (if face ∈ L.mFaces then L.mFaces else L.mFaces ++ [face]) ∧
    (L.findFace E σ face).2.1.mHbFonts.length
      = (if face ∈ L.mFaces then L.mHbFonts.length else L.mHbFonts.length + 1) ∧
    (L.findFace E σ face).2.1.mGlyphs = L.mGlyphs ∧
    (L.findFace E σ face).2.1.mProps = L.mProps ∧
    (L.findFace E σ face).2.1.mCollection = L.mCollection := by
  unfold Layout.findFace
  rw [findFaceLoop_eq]
  by_cases hf : face ∈ L.mFaces
  · simp [hf]
  · simp [hf, List.indexOf_eq_length.mpr hf]

theorem seen_cons (table : List FT_Face) (f : FT_Face) (faces : List FT_Face) :
    seen table (f :: faces) = seen (if f ∈ table then table else table ++ [f]) faces := rfl

theorem seen_append (table a b : List FT_Face) :
    seen table (a ++ b) = seen (seen table a) b := by
  simp [seen, List.foldl_append]

theorem seen_indexOf (faces : List FT_Face) :
    ∀ (table : List FT_Face) (f : FT_Face), f ∈ table →
      (seen table faces).indexOf f = table.indexOf f := by
  induction faces with
  | nil => intro table f _; rfl
  | cons g rest ih =>
    intro table f hf
    rw [seen_cons]
    by_cases hg : g ∈ table
    · rw [if_pos hg]
      exact ih table f hf
    · rw [if_neg hg, ih (table ++ [g]) f (List.mem_append_left _ hf),
        List.indexOf_append_of_mem hf]

theorem seen_mem (faces : List FT_Face) :
    ∀ (table : List FT_Face) (f : FT_Face), f ∈ seen table faces ↔ f ∈ table ∨ f ∈ faces := by
  induction faces with
  | nil => intro table f; simp [seen]
  | cons g rest ih =>
    intro table f
    rw [seen_cons, ih]
    by_cases hg : g ∈ table
    · rw [if_pos hg]
      simp only [List.mem_cons]
      constructor
      · rintro (h | h)
        · exact Or.inl h
        · exact Or.inr (Or.inr h)
      · rintro (h | h | h)
        · exact Or.inl h
        · subst h; exact Or.inl hg
        · exact Or.inr h
    · rw [if_neg hg]
      simp only [List.mem_append, List.mem_singleton, List.mem_cons]
      tauto

theorem seen_nodup (faces : List FT_Face) :
    ∀ table : List FT_Face, table.Nodup → (seen table faces).Nodup := by
  induction faces with
  | nil => intro table h; exact h
  | cons g rest ih =>
    intro table h
    rw [seen_cons]
    by_cases hg : g ∈ table
    · rw [if_pos hg]; exact ih table h
    · rw [if_neg hg]
      apply ih
      rw [List.nodup_append]
      refine ⟨h, List.nodup_singleton g, ?_⟩
      intro a ha hb
      rw [List.mem_singleton] at hb
      subst hb
      exact hg ha

theorem seen_indexOf_eq_rank (faces : List FT_Face) (f : FT_Face) (hf : f ∈ faces) :
    (seen [] faces).indexOf f = rank faces f := by
  unfold rank
  have hi : faces.indexOf f < faces.length := List.indexOf_lt_length.mpr hf
  have hsplit : faces = faces.take (faces.indexOf f) ++ f :: faces.drop (faces.indexOf f + 1) := by
    conv_lhs => rw [← List.take_append_drop (faces.indexOf f) faces]
    congr 1
    rw [List.drop_eq_getElem_cons hi, List.getElem_indexOf hi]
  have hnot : f ∉ faces.take (faces.indexOf f) := by
    intro hmem
    have h1 : (faces.take (faces.indexOf f)).indexOf f < (faces.take (faces.indexOf f)).length :=
      List.indexOf_lt_length.mpr hmem
    have h2 : faces.indexOf f = (faces.take (faces.indexOf f)).indexOf f := by
      conv_lhs => rw [hsplit]
      exact List.indexOf_append_of_mem hmem
    have h3 : (faces.take (faces.indexOf f)).length ≤ faces.indexOf f := by
      rw [List.length_take]; exact Nat.min_le_left _ _
    omega
  have hnot' : f ∉ seen [] (faces.take (faces.indexOf f)) := by
    rw [seen_mem]
    simp [hnot]
  conv_lhs => rw [hsplit, seen_append, seen_cons, if_neg hnot']
  rw [seen_indexOf _ _ _ (List.mem_append_right _ (List.mem_singleton_self f)),
    List.indexOf_append_of_not_mem hnot']
  simp only [List.indexOf_cons_self, add_zero]
  rw [← List.toFinset_card_of_nodup (seen_nodup _ [] List.nodup_nil)]
  congr 1
  ext a
  simp [seen_mem]

theorem findFaces_spec {S : Type} (E : Engine S) (faces : List FT_Face) :
    ∀ (L : Layout) (σ : S),
      (findFaces E L σ faces).2.1.mFaces = seen L.mFaces faces ∧
      (findFaces E L σ faces).1
        = faces.map (fun f => ((seen L.mFaces faces).indexOf f : Int)) := by
  induction faces with
  | nil => intro L σ; exact ⟨rfl, rfl⟩
  | cons f rest ih =>
    intro L σ
    obtain ⟨hix, hfaces, _⟩ := findFace_spec E L σ f
    obtain ⟨ih1, ih2⟩ := ih (L.findFace E σ f).2.1 (L.findFace E σ f).2.2
    rw [hfaces] at ih1 ih2
    simp only [findFaces, seen_cons, List.map_cons]
    refine ⟨ih1, ?_⟩
    rw [ih2, hix]
    congr 2
    by_cases hf : f ∈ L.mFaces
    · rw [if_pos hf, seen_indexOf _ _ _ hf]
    · rw [if_neg hf, seen_indexOf _ _ _ (List.mem_append_right _ (List.mem_singleton_self f)),
        List.indexOf_append_of_not_mem hf]
      simp [List.indexOf_eq_length.mpr hf]

/-! ## Lemmas on `doLayout` -/

theorem layoutGlyph_foldl {S : Type} (font_ix : Int) (shaped : List ShapedGlyph) :
    ∀ st : LayoutState S,
      shaped.foldl (layoutGlyph font_ix) st
        = { st with
            layout := { st.layout with
              mGlyphs := st.layout.mGlyphs ++ glyphsFrom font_ix st.x st.y shaped }
            x := penAfter st.x shaped } := by
  induction shaped with
  | nil => intro st; simp [glyphsFrom, penAfter]
  | cons g rest ih =>
    intro st
    rw [List.foldl_cons, ih]
    simp [layoutGlyph, glyphsFrom, penAfter]

theorem vecAt_lt {α : Type} {v : List α} {n : Nat} (h : n < v.length) :
    vecAt v (n : Int) = some v[n] := by
  simp [vecAt, List.getElem?_eq_getElem h]

theorem vecAt_eq_some {α : Type} {v : List α} {i : Int} {a : α} (h : vecAt v i = some a) :
    0 ≤ i ∧ i < v.length := by
  unfold vecAt at h
  split at h
  · rename_i h0
    refine ⟨h0, ?_⟩
    by_contra hlt
    rw [List.getElem?_eq_none (by omega)] at h
    simp at h
  · simp at h

theorem vecAt_append {α : Type} {v w : List α} {i : Int} {a : α} (h : vecAt v i = some a) :
    vecAt (v ++ w) i = some a := by
  obtain ⟨h0, h1⟩ := vecAt_eq_some h
  unfold vecAt at h ⊢
  rw [if_pos h0] at h ⊢
  rw [List.getElem?_append_left (by omega)]
  exact h

theorem findFace_index {S : Type} (E : Engine S) (L : Layout) (σ : S) (face : FT_Face)
    (hlen : L.mHbFonts.length = L.mFaces.length) :
    (L.findFace E σ face).2.1.mHbFonts.length = (L.findFace E σ face).2.1.mFaces.length ∧
    (∃ n : Nat, (L.findFace E σ face).1 = (n : Int) ∧
      n < (L.findFace E σ face).2.1.mFaces.length ∧
      (L.findFace E σ face).2.1.mFaces[n]? = some face) ∧
    (∃ ext, (L.findFace E σ face).2.1.mFaces = L.mFaces ++ ext) := by
  obtain ⟨hix, hfaces, hfonts, _⟩ := findFace_spec E L σ face
  rw [hix, hfaces, hfonts]
  by_cases hf : face ∈ L.mFaces
  · simp only [if_pos hf]
    have hlt := List.indexOf_lt_length.mpr hf
    refine ⟨hlen, ⟨_, rfl, hlt, ?_⟩, [], by simp⟩
    rw [List.getElem?_eq_getElem hlt, List.getElem_indexOf hlt]
  · simp only [if_neg hf]
    refine ⟨by simp [hlen], ⟨_, rfl, ?_, ?_⟩, [face], rfl⟩
    · simp [List.indexOf_eq_length.mpr hf]
    · rw [List.indexOf_eq_length.mpr hf]
      simp

theorem shapeRun_some {S : Type} (E : Engine S) (buf : List Nat) (st : LayoutState S)
    (run : Run) (hlen : st.layout.mHbFonts.length = st.layout.mFaces.length) :
    ∃ sr st1, shapeRun E buf st run = some (sr, st1) ∧ sr.run = run ∧
      sr.font_ix = (st.layout.findFace E st.σ run.font).1 ∧
      st1.layout = (st.layout.findFace E st.σ run.font).2.1 ∧ st1.x = st.x ∧ st1.y = st.y := by
  obtain ⟨hl, ⟨n, hn, hlt, _⟩, _⟩ := findFace_index E st.layout st.σ run.font hlen
  have hlt' : n < (st.layout.findFace E st.σ run.font).2.1.mHbFonts.length := by
    rw [hl]; exact hlt
  have hv := vecAt_lt hlt'
  rw [← hn] at hv
  unfold shapeRun
  rw [hv]
  exact ⟨_, _, rfl, rfl, rfl, rfl, rfl, rfl⟩

theorem layoutRuns_spec {S : Type} (E : Engine S) (buf : List Nat) (runs : List Run) :
    ∀ st : LayoutState S, st.layout.mHbFonts.length = st.layout.mFaces.length →
      ∃ st', runs.foldlM (layoutRun E buf) st = some st' ∧
        st'.layout.mHbFonts.length = st'.layout.mFaces.length ∧
        (∃ ext, st'.layout.mFaces = st.layout.mFaces ++ ext) ∧
        st'.layout.mGlyphs
          = st.layout.mGlyphs ++ glyphsOf st.x st.y (shapedRuns E buf st runs) ∧
        st'.y = st.y ∧
        (shapedRuns E buf st runs).map (fun sr => sr.run) = runs ∧
        (∀ sr ∈ shapedRuns E buf st runs,
          vecAt st'.layout.mFaces sr.font_ix = some sr.run.font) ∧
        st'.layout.mProps = st.layout.mProps ∧
        st'.layout.mCollection = st.layout.mCollection := by
  induction runs with
  | nil =>
    intro st hlen
    exact ⟨st, rfl, hlen, ⟨[], by simp⟩, by simp [shapedRuns, glyphsOf], rfl, rfl,
      by simp [shapedRuns], rfl, rfl⟩
  | cons run rest ih =>
    intro st hlen
    obtain ⟨sr, st1, hsr, hrun, hix, hlay, hx, hy⟩ := shapeRun_some E buf st run hlen
    obtain ⟨hl1, ⟨n, hn, hlt, hface⟩, ext1, hext1⟩ :=
      findFace_index E st.layout st.σ run.font hlen
    obtain ⟨_, _, _, hgl, hpr, hco⟩ := findFace_spec E st.layout st.σ run.font
    have hfold := layoutGlyph_foldl sr.font_ix sr.shaped st1
    have h2g : (sr.shaped.foldl (layoutGlyph sr.font_ix) st1).layout.mGlyphs
        = st.layout.mGlyphs ++ glyphsFrom sr.font_ix st.x st.y sr.shaped := by
      rw [hfold]; simp [hlay, hgl, hx, hy]
    have h2x : (sr.shaped.foldl (layoutGlyph sr.font_ix) st1).x = penAfter st.x sr.shaped := by
      rw [hfold]; simp [hx]
    have h2y : (sr.shaped.foldl (layoutGlyph sr.font_ix) st1).y = st.y := by
      rw [hfold]; simp [hy]
    have h2f : (sr.shaped.foldl (layoutGlyph sr.font_ix) st1).layout.mFaces
        = (st.layout.findFace E st.σ run.font).2.1.mFaces := by
      rw [hfold]; simp [hlay]
    have h2h : (sr.shaped.foldl (layoutGlyph sr.font_ix) st1).layout.mHbFonts
        = (st.layout.findFace E st.σ run.font).2.1.mHbFonts := by
      rw [hfold]; simp [hlay]
    have h2p : (sr.shaped.foldl (layoutGlyph sr.font_ix) st1).layout.mProps
        = st.layout.mProps := by
      rw [hfold]; simp [hlay, hpr]
    have h2c : (sr.shaped.foldl (layoutGlyph sr.font_ix) st1).layout.mCollection
        = st.layout.mCollection := by
      rw [hfold]; simp [hlay, hco]
    clear hfold
    obtain ⟨st', hst', hl', ⟨ext, hext⟩, hg', hy', hruns', hvec', hp', hc'⟩ :=
      ih (sr.shaped.foldl (layoutGlyph sr.font_ix) st1) (by rw [h2f, h2h]; exact hl1)
    refine ⟨st', ?_, hl', ⟨ext1 ++ ext, ?_⟩, ?_, ?_, ?_, ?_, ?_, ?_⟩
    · simp only [List.foldlM_cons, layoutRun, hsr]
      exact hst'
    · rw [hext, h2f, hext1, List.append_assoc]
    · rw [hg', h2g, h2x, h2y]
      simp [shapedRuns, hsr, glyphsOf]
    · rw [hy', h2y]
    · simp [shapedRuns, hsr, hruns', hrun]
    · intro sr' hsr'
      simp only [shapedRuns, hsr, List.mem_cons] at hsr'
      rcases hsr' with rfl | hmem
      · rw [hext, h2f]
        apply vecAt_append
        rw [hix, hn, hrun]
        simp [vecAt, hface]
      · exact hvec' sr' hmem
    · rw [hp', h2p]
    · rw [hc', h2c]

theorem doLayout_spec {S : Type} (E : Engine S) (L : Layout) (σ : S) (buf : List Nat) :
    ∃ L' σ', L.doLayout E σ buf = some (L', σ') ∧
      L'.mHbFonts.length = L'.mFaces.length ∧
      L'.mGlyphs = glyphsOf 0 0
        (shapedRuns E buf (doLayoutInit L σ)
          (L.mCollection.itemize buf (styleFromCss L.mProps))) ∧
      (shapedRuns E buf (doLayoutInit L σ)
          (L.mCollection.itemize buf (styleFromCss L.mProps))).map (fun sr => sr.run)
        = L.mCollection.itemize buf (styleFromCss L.mProps) ∧
      (∀ sr ∈ shapedRuns E buf (doLayoutInit L σ)
          (L.mCollection.itemize buf (styleFromCss L.mProps)),
        vecAt L'.mFaces sr.font_ix = some sr.run.font) ∧
      L'.mProps = L.mProps ∧ L'.mCollection = L.mCollection := by
  obtain ⟨st', hst', hl, _, hg, _, hruns, hvec, hp, hc⟩ :=
    layoutRuns_spec E buf (L.mCollection.itemize buf (styleFromCss L.mProps))
      (doLayoutInit L σ) rfl
  refine ⟨st'.layout, st'.σ, ?_, hl, ?_, hruns, hvec, hp, hc⟩
  · unfold Layout.doLayout
    simp only [hst']
  · rw [hg]
    simp [doLayoutInit]

theorem penAfter_cons (x : ℚ) (g : ShapedGlyph) (rest : List ShapedGlyph) :
    penAfter x (g :: rest) = penAfter (fadd x (HBFixedToFloat g.x_advance)) rest := rfl

theorem penAfter_append (x : ℚ) (a b : List ShapedGlyph) :
    penAfter x (a ++ b) = penAfter (penAfter x a) b := by
  simp [penAfter, List.foldl_append]

theorem glyphsFrom_append (font_ix : Int) (y : ℚ) (a b : List ShapedGlyph) :
    ∀ x : ℚ, glyphsFrom font_ix x y (a ++ b)
      = glyphsFrom font_ix x y a ++ glyphsFrom font_ix (penAfter x a) y b := by
  induction a with
  | nil => intro x; simp [glyphsFrom, penAfter]
  | cons g rest ih =>
    intro x
    rw [List.cons_append, penAfter_cons]
    simp only [glyphsFrom, List.cons_append, List.cons.injEq, true_and]
    exact ih _

theorem glyphsFrom_length (font_ix : Int) (y : ℚ) (gs : List ShapedGlyph) :
    ∀ x : ℚ, (glyphsFrom font_ix x y gs).length = gs.length := by
  induction gs with
  | nil => intro x; rfl
  | cons g rest ih => intro x; simp [glyphsFrom, ih]

theorem glyphsFrom_getElem? (font_ix : Int) (y : ℚ) (gs : List ShapedGlyph) :
    ∀ (x : ℚ) (k : Nat) (s : ShapedGlyph), gs[k]? = some s →
      (glyphsFrom font_ix x y gs)[k]?
        = some { font_ix := font_ix, glyph_id := s.codepoint,
                 x := fadd (penAfter x (gs.take k)) (HBFixedToFloat s.x_offset),
                 y := fadd y (HBFixedToFloat s.y_offset) } := by
  induction gs with
  | nil => intro x k s h; simp at h
  | cons g rest ih =>
    intro x k s h
    cases k with
    | zero =>
      simp only [List.getElem?_cons_zero, Option.some.injEq] at h
      subst h
      simp [glyphsFrom, penAfter]
    | succ k =>
      simp only [List.getElem?_cons_succ] at h
      simp only [glyphsFrom, List.getElem?_cons_succ, ih _ k s h, List.take_succ_cons]
      simp [penAfter]

theorem glyphsFrom_pos (font_ix : Int) (y : ℚ) (gs : List ShapedGlyph) :
    ∀ x : ℚ, (glyphsFrom font_ix x y gs).map glyphPos
      = (glyphsFrom 0 x y gs).map glyphPos := by
  induction gs with
  | nil => intro x; rfl
  | cons g rest ih => intro x; simp [glyphsFrom, ih, glyphPos]

theorem glyphsOf_pos (y : ℚ) (trace : List ShapedRun) :
    ∀ x : ℚ, (glyphsOf x y trace).map glyphPos
      = (glyphsFrom 0 x y (trace.map (fun sr => sr.shaped)).flatten).map glyphPos := by
  induction trace with
  | nil => intro x; rfl
  | cons sr rest ih =>
    intro x
    simp only [glyphsOf, List.map_cons, List.flatten_cons, List.map_append, glyphsFrom_append, ih]
    rw [glyphsFrom_pos]

theorem glyphsOf_font_ix (y : ℚ) (trace : List ShapedRun) :
    ∀ (x : ℚ) (g : LayoutGlyph), g ∈ glyphsOf x y trace →
      ∃ sr ∈ trace, g.font_ix = sr.font_ix := by
  induction trace with
  | nil => intro x g h; simp [glyphsOf] at h
  | cons sr rest ih =>
    intro x g h
    simp only [glyphsOf, List.mem_append] at h
    rcases h with h | h
    · refine ⟨sr, List.mem_cons_self _ _, ?_⟩
      clear ih
      generalize sr.shaped = gs at h
      induction gs generalizing x with
      | nil => simp [glyphsFrom] at h
      | cons s rest' ih' =>
        simp only [glyphsFrom, List.mem_cons] at h
        rcases h with rfl | h
        · rfl
        · exact ih' _ h
    · obtain ⟨sr', hm, he⟩ := ih _ g h
      exact ⟨sr', List.mem_cons_of_mem _ hm, he⟩

/-! ## Lemmas on floating-point rounding -/

theorem roundNearestEven_intCast (n : Int) : roundNearestEven (n : ℚ) = n := by
  simp [roundNearestEven]

theorem roundNearestEven_err (q : ℚ) : |(roundNearestEven q : ℚ) - q| ≤ 1 / 2 := by
  unfold roundNearestEven
  have h1 := Int.floor_le q
  have h2 := Int.lt_floor_add_one q
  simp only
  split_ifs with ha hb hc
  · rw [abs_le]; constructor <;> linarith
  · rw [abs_le]; push_cast; constructor <;> linarith
  · rw [abs_le]; constructor <;> linarith
  · rw [abs_le]; push_cast; constructor <;> linarith

theorem two_zpow_pos (e : Int) : (0 : ℚ) < 2 ^ e := zpow_pos (by norm_num) e

theorem log_bounds {q : ℚ} (hq : q ≠ 0) :
    (2 : ℚ) ^ Int.log 2 |q| ≤ |q| ∧ |q| < (2 : ℚ) ^ (Int.log 2 |q| + 1) := by
  have hpos : 0 < |q| := abs_pos.mpr hq
  constructor
  · exact_mod_cast Int.zpow_log_le_self (b := 2) (by norm_num) hpos
  · exact_mod_cast Int.lt_zpow_succ_log_self (b := 2) (by norm_num) |q|

/-- A value on the grid of its binade is left unchanged. -/
theorem fpRound_of_grid (p : Nat) (q : ℚ) (n : Int)
    (h : q = n * 2 ^ (Int.log 2 |q| - ((p : Int) - 1))) : fpRound p q = q := by
  unfold fpRound
  split
  · rename_i h0; exact h0.symm
  · simp only
    have hpos := two_zpow_pos (Int.log 2 |q| - ((p : Int) - 1))
    have : q / 2 ^ (Int.log 2 |q| - ((p : Int) - 1)) = (n : ℚ) := by
      rw [div_eq_iff hpos.ne']
      exact h
    rw [this, roundNearestEven_intCast]
    exact h.symm

theorem fpRound_of_isFloat (p : Nat) (q : ℚ) (h : IsFloat p q) : fpRound p q = q := by
  obtain ⟨m, e, hm, rfl⟩ := h
  by_cases h0 : (m : ℚ) * 2 ^ e = 0
  · simp [fpRound, h0]
  obtain ⟨hl, hu⟩ := log_bounds h0
  set L := Int.log 2 |(m : ℚ) * 2 ^ e| with hL
  have hpe := two_zpow_pos e
  -- |m| 2^e < 2^(p+e)
  have hmq : |(m : ℚ)| < 2 ^ (p : Int) := by
    have : ((|m| : Int) : ℚ) < ((2 ^ p : Int) : ℚ) := by exact_mod_cast hm
    simpa using this
  have h1 : |(m : ℚ) * 2 ^ e| < 2 ^ ((p : Int) + e) := by
    rw [abs_mul, abs_of_pos hpe, zpow_add₀ (by norm_num)]
    exact mul_lt_mul_of_pos_right hmq hpe
  have h2 : L < (p : Int) + e := by
    have := lt_of_le_of_lt hl h1
    exact (zpow_lt_zpow_iff_right₀ (by norm_num : (1 : ℚ) < 2)).mp this
  have hk : 0 ≤ e - (L - ((p : Int) - 1)) := by omega
  apply fpRound_of_grid p _ (m * 2 ^ (e - (L - ((p : Int) - 1))).toNat)
  rw [← hL]
  push_cast
  rw [mul_assoc]
  congr 1
  rw [← zpow_natCast, ← zpow_add₀ (by norm_num)]
  congr 1
  rw [Int.toNat_of_nonneg hk]
  ring

theorem isFloat_scale {p : Nat} {q : ℚ} (h : IsFloat p q) (k : Int) : IsFloat p (q * 2 ^ k) := by
  obtain ⟨m, e, hm, rfl⟩ := h
  refine ⟨m, e + k, hm, ?_⟩
  rw [zpow_add₀ (by norm_num), mul_assoc]

theorem isFloat_intCast {p : Nat} {n : Int} (h : |n| < 2 ^ p) : IsFloat p (n : ℚ) :=
  ⟨n, 0, h, by simp⟩

theorem isFloat_intCast_le {p : Nat} (hp : 1 ≤ p) {n : Int} (h : |n| ≤ 2 ^ p) :
    IsFloat p (n : ℚ) := by
  rcases lt_or_eq_of_le h with hlt | heq
  · exact isFloat_intCast hlt
  · have h1p : (1 : Int) < 2 ^ p := one_lt_pow₀ (by norm_num) (by omega)
    rcases (abs_eq (by positivity : (0 : Int) ≤ 2 ^ p)).mp heq with h1 | h1
    · refine ⟨1, p, by simpa using h1p, ?_⟩
      rw [h1]; simp
    · refine ⟨-1, p, by simpa using h1p, ?_⟩
      rw [h1]; simp

theorem isFloat_int_of_large {p : Nat} (_hp : 1 ≤ p) {q : ℚ} (h : IsFloat p q)
    (hq : (2 : ℚ) ^ ((p : Int) - 1) ≤ |q|) : ∃ n : Int, q = n := by
  obtain ⟨m, e, hm, rfl⟩ := h
  by_cases he : 0 ≤ e
  · refine ⟨m * 2 ^ e.toNat, ?_⟩
    push_cast
    rw [← zpow_natCast, Int.toNat_of_nonneg he]
  · exfalso
    have hpe : (0 : ℚ) < 2 ^ e := two_zpow_pos e
    have hmq : |(m : ℚ)| < 2 ^ (p : Int) := by
      have : ((|m| : Int) : ℚ) < ((2 ^ p : Int) : ℚ) := by exact_mod_cast hm
      simpa using this
    have h1 : |(m : ℚ) * 2 ^ e| < 2 ^ ((p : Int) + e) := by
      rw [abs_mul, abs_of_pos hpe, zpow_add₀ (by norm_num)]
      exact mul_lt_mul_of_pos_right hmq hpe
    have h2 := lt_of_le_of_lt hq h1
    have := (zpow_lt_zpow_iff_right₀ (by norm_num : (1 : ℚ) < 2)).mp h2
    omega

theorem truncToInt_intCast (n : Int) : truncToInt (n : ℚ) = n := by
  unfold truncToInt
  split <;> simp

theorem truncToInt_err (q : ℚ) : |(truncToInt q : ℚ) - q| < 1 := by
  unfold truncToInt
  split
  · have h1 := Int.floor_le q
    have h2 := Int.lt_floor_add_one q
    rw [abs_lt]; constructor <;> linarith
  · have h1 := Int.le_ceil q
    have h2 := Int.ceil_lt_add_one q
    rw [abs_lt]; constructor <;> linarith

theorem truncToInt_abs_le (q : ℚ) : |(truncToInt q : ℚ)| ≤ |q| := by
  unfold truncToInt
  split
  · rename_i h
    have h1 := Int.floor_le q
    have h0 : (0 : ℚ) ≤ ⌊q⌋ := by exact_mod_cast Int.floor_nonneg.mpr h
    rw [abs_of_nonneg h0, abs_of_nonneg h]
    exact h1
  · rename_i h
    push_neg at h
    have h1 := Int.le_ceil q
    have h0 : ((⌈q⌉ : Int) : ℚ) ≤ 0 := by exact_mod_cast Int.ceil_le.mpr (by simpa using h.le)
    rw [abs_of_nonpos h0, abs_of_neg h]
    linarith

theorem fpRound_err (p : Nat) {q : ℚ} (hq : q ≠ 0) :
    |fpRound p q - q| ≤ 2 ^ (Int.log 2 |q| - ((p : Int) - 1)) / 2 := by
  unfold fpRound
  rw [if_neg hq]
  simp only
  have hpos := two_zpow_pos (Int.log 2 |q| - ((p : Int) - 1))
  set u : ℚ := 2 ^ (Int.log 2 |q| - ((p : Int) - 1)) with hu
  have h := roundNearestEven_err (q / u)
  have : (roundNearestEven (q / u) : ℚ) * u - q = ((roundNearestEven (q / u) : ℚ) - q / u) * u := by
    field_simp
  rw [this, abs_mul, abs_of_pos hpos]
  calc |(roundNearestEven (q / u) : ℚ) - q / u| * u ≤ 1 / 2 * u :=
        mul_le_mul_of_nonneg_right h hpos.le
    _ = u / 2 := by ring

theorem abs_cast_le_of_lt {m : Int} {p : Nat} (hm : |m| < 2 ^ p) :
    |(m : ℚ)| ≤ 2 ^ (p : Int) - 1 := by
  have : |m| ≤ 2 ^ p - 1 := by omega
  have h2 : ((|m| : Int) : ℚ) ≤ ((2 ^ p - 1 : Int) : ℚ) := by exact_mod_cast this
  simpa using h2

theorem zpow_two_le {a b : Int} (h : a ≤ b) : (2 : ℚ) ^ a ≤ 2 ^ b :=
  zpow_le_zpow_right₀ (by norm_num) h

theorem zpow_two_lt_iff {a b : Int} : (2 : ℚ) ^ a < 2 ^ b ↔ a < b :=
  zpow_lt_zpow_iff_right₀ (by norm_num)

theorem fpRound_eq (p : Nat) {q : ℚ} (hq : q ≠ 0) :
    fpRound p q = (roundNearestEven (q / 2 ^ (Int.log 2 |q| - ((p : Int) - 1))) : ℚ)
      * 2 ^ (Int.log 2 |q| - ((p : Int) - 1)) := by
  unfold fpRound
  rw [if_neg hq]

theorem roundNearestEven_add_small (N : Int) (r : ℚ) (hN : N % 2 = 0) (h0 : 0 ≤ r)
    (h1 : r ≤ 1 / 2) : roundNearestEven ((N : ℚ) + r) = N := by
  have hf : ⌊(N : ℚ) + r⌋ = N := by
    rw [Int.floor_eq_iff]
    constructor <;> linarith
  unfold roundNearestEven
  simp only [hf]
  have hr : (N : ℚ) + r - N = r := by ring
  rw [hr]
  split_ifs with ha hb
  · rfl
  · exfalso; linarith
  · rfl

/-- Rounding `x + 1/2` to `double` does not change its floor, for a `float` `x`. -/
theorem floor_fpRound_add_half (x : ℚ) (hx : IsFloat 24 x) :
    ⌊fpRound 53 (x + 1 / 2)⌋ = ⌊x + 1 / 2⌋ := by
  obtain ⟨m, e, hm, rfl⟩ := hx
  by_cases hs0 : (m : ℚ) * 2 ^ e + 1 / 2 = 0
  · rw [hs0]; simp [fpRound]
  obtain ⟨hl, hu⟩ := log_bounds hs0
  have herr := fpRound_err 53 hs0
  have hmabs := abs_cast_le_of_lt hm
  have heq := fpRound_eq 53 hs0
  have h53 : ((53 : ℕ) : ℤ) - 1 = 52 := by norm_num
  rw [h53] at herr heq
  set s : ℚ := (m : ℚ) * 2 ^ e + 1 / 2 with hs
  set L := Int.log 2 |s| with hL
  have hpe := two_zpow_pos e
  have hpu := two_zpow_pos (L - 52)
  have hxabs : |(m : ℚ) * 2 ^ e| ≤ (2 ^ (24 : Int) - 1) * 2 ^ e := by
    rw [abs_mul, abs_of_pos hpe]
    exact mul_le_mul_of_nonneg_right (by simpa using hmabs) hpe.le
  have hsabs : |s| ≤ |(m : ℚ) * 2 ^ e| + 1 / 2 := by
    rw [hs]
    calc |(m : ℚ) * 2 ^ e + 1 / 2| ≤ |(m : ℚ) * 2 ^ e| + |(1 / 2 : ℚ)| := abs_add _ _
      _ = _ := by norm_num
  by_cases he : 0 ≤ e
  · -- `x` is an integer
    have hxX : (m : ℚ) * 2 ^ e = ((m * 2 ^ e.toNat : Int) : ℚ) := by
      push_cast; rw [← zpow_natCast, Int.toNat_of_nonneg he]
    have hfloor : ⌊s⌋ = m * 2 ^ e.toNat := by
      rw [hs, hxX, Int.floor_eq_iff]
      constructor <;> linarith
    rw [hfloor]
    by_cases hL51 : L ≤ 51
    · have hgrid : fpRound 53 s = s := by
        apply fpRound_of_grid 53 s ((2 * (m * 2 ^ e.toNat) + 1) * 2 ^ (51 - L).toNat)
        rw [← hL, h53]
        have h2 : ((2 : ℚ) ^ (51 - L).toNat) * 2 ^ (L - 52) = 1 / 2 := by
          rw [← zpow_natCast, Int.toNat_of_nonneg (by omega), ← zpow_add₀ (by norm_num)]
          have : (51 - L + (L - 52) : Int) = -1 := by ring
          rw [this]; norm_num
        push_cast
        rw [mul_assoc, h2, hs, hxX]
        push_cast
        ring
      rw [hgrid, hfloor]
    · have h1e : (1 : ℚ) ≤ 2 ^ e := one_le_zpow₀ (by norm_num) he
      have hlt : |s| < 2 ^ (24 + e) := by
        rw [zpow_add₀ (by norm_num)]
        calc |s| ≤ |(m : ℚ) * 2 ^ e| + 1 / 2 := hsabs
          _ ≤ (2 ^ (24 : Int) - 1) * 2 ^ e + 1 / 2 := by linarith
          _ < 2 ^ (24 : Int) * 2 ^ e := by linarith
      have hLe : L < 24 + e := zpow_two_lt_iff.mp (lt_of_le_of_lt hl hlt)
      have hk : 1 ≤ e - (L - 52) := by omega
      have hNeven : (m * 2 ^ (e - (L - 52)).toNat) % 2 = 0 := by
        have : (e - (L - 52)).toNat = ((e - (L - 52)).toNat - 1) + 1 := by omega
        rw [this, pow_succ, ← mul_assoc]
        exact Int.mul_emod_left _ 2
      have hr0 : (0 : ℚ) < 2 ^ (51 - L) := two_zpow_pos _
      have hr1 : (2 : ℚ) ^ (51 - L) ≤ 1 / 2 := by
        have := zpow_two_le (show 51 - L ≤ -1 by omega)
        norm_num at this ⊢
        exact this
      have hsu : s / 2 ^ (L - 52)
          = ((m * 2 ^ (e - (L - 52)).toNat : Int) : ℚ) + 2 ^ (51 - L) := by
        rw [div_eq_iff hpu.ne', add_mul, ← zpow_add₀ (by norm_num)]
        have : (51 - L + (L - 52) : Int) = -1 := by ring
        rw [this]
        push_cast
        rw [← zpow_natCast, Int.toNat_of_nonneg (by omega), mul_assoc,
          ← zpow_add₀ (by norm_num)]
        have : (e - (L - 52) + (L - 52) : Int) = e := by ring
        rw [this, hs]
        norm_num
      rw [heq, hsu, roundNearestEven_add_small _ _ hNeven hr0.le hr1]
      have : ((m * 2 ^ (e - (L - 52)).toNat : Int) : ℚ) * 2 ^ (L - 52)
          = ((m * 2 ^ e.toNat : Int) : ℚ) := by
        push_cast
        rw [← zpow_natCast, ← zpow_natCast, Int.toNat_of_nonneg (by omega),
          Int.toNat_of_nonneg he, mul_assoc, ← zpow_add₀ (by norm_num)]
        congr 2
        ring
      rw [this, Int.floor_intCast]
  · have he' : e < 0 := by omega
    by_cases hLe : L - 52 ≤ e
    · have hgrid : fpRound 53 s = s := by
        apply fpRound_of_grid 53 s
          ((m + 2 ^ (-1 - e).toNat) * 2 ^ (e - (L - 52)).toNat)
        rw [← hL, h53]
        push_cast
        rw [← zpow_natCast, ← zpow_natCast, Int.toNat_of_nonneg (by omega),
          Int.toNat_of_nonneg (by omega), mul_assoc, ← zpow_add₀ (by norm_num)]
        have : (e - (L - 52) + (L - 52) : Int) = e := by ring
        rw [this, add_mul, ← zpow_add₀ (by norm_num)]
        have : (-1 - e + e : Int) = -1 := by ring
        rw [this, hs]
        norm_num
      rw [hgrid]
    · have hx1 : |(m : ℚ) * 2 ^ e| < 2 ^ (L - 29) := by
        calc |(m : ℚ) * 2 ^ e| ≤ (2 ^ (24 : Int) - 1) * 2 ^ e := hxabs
          _ < 2 ^ (24 : Int) * 2 ^ e := by linarith
          _ = 2 ^ (24 + e) := by rw [zpow_add₀ (by norm_num)]
          _ ≤ 2 ^ (L - 29) := zpow_two_le (by omega)
      have hLneg : L ≤ -1 := by
        by_contra hcon
        have h1 : (1 : ℚ) ≤ 2 ^ L := one_le_zpow₀ (by norm_num) (by omega)
        have h2 : (2 : ℚ) ^ (L - 29) ≤ 2 ^ (L - 1) := zpow_two_le (by omega)
        have h3 : (2 : ℚ) ^ (L - 1) = 2 ^ L / 2 := by
          rw [zpow_sub₀ (by norm_num)]; norm_num
        linarith
      have h4 : (2 : ℚ) ^ (L - 29) ≤ 1 / 4 := by
        have := zpow_two_le (show L - 29 ≤ -2 by omega)
        norm_num at this ⊢
        exact this
      have h5 : (2 : ℚ) ^ (L - 52) ≤ 1 / 4 := by
        have := zpow_two_le (show L - 52 ≤ -2 by omega)
        norm_num at this ⊢
        exact this
      have hxb := abs_lt.mp (lt_of_lt_of_le hx1 h4)
      have herr' := abs_le.mp herr
      have hf1 : ⌊s⌋ = 0 := by
        rw [Int.floor_eq_iff, hs]
        constructor <;> push_cast <;> linarith [hxb.1, hxb.2]
      have hf2 : ⌊fpRound 53 s⌋ = 0 := by
        rw [Int.floor_eq_iff]
        have hs1 : (1 : ℚ) / 4 < s := by rw [hs]; linarith [hxb.1]
        have hs2 : s < 3 / 4 := by rw [hs]; linarith [hxb.2]
        constructor <;> push_cast <;> linarith [herr'.1, herr'.2]
      rw [hf1, hf2]

theorem toFloat_of_isFloat {q : ℚ} (h : IsFloat 24 q) : toFloat q = q :=
  fpRound_of_isFloat 24 q h

theorem scalbnf_of_isFloat {v : ℚ} (h : IsFloat 24 v) (k : Int) : scalbnf v k = v * 2 ^ k :=
  toFloat_of_isFloat (isFloat_scale h k)

theorem HBFloatToFixed_of_isFloat {v : ℚ} (h : IsFloat 24 v) :
    HBFloatToFixed v = truncToInt (v * 256) := by
  unfold HBFloatToFixed
  rw [scalbnf_of_isFloat h]
  norm_num

theorem HBFixedToFloat_of_isFloat {n : Int} (h : IsFloat 24 (n : ℚ)) :
    HBFixedToFloat n = (n : ℚ) / 256 := by
  unfold HBFixedToFloat
  rw [toFloat_of_isFloat h, scalbnf_of_isFloat h]
  norm_num
  ring

theorem isFloat_truncToInt {w : ℚ} (h : IsFloat 24 w) : IsFloat 24 ((truncToInt w : Int) : ℚ) := by
  by_cases hw : (2 : ℚ) ^ (((24 : ℕ) : Int) - 1) ≤ |w|
  · obtain ⟨n, rfl⟩ := isFloat_int_of_large (by norm_num) h hw
    rw [truncToInt_intCast]
    exact h
  · push_neg at hw
    apply isFloat_intCast
    have h1 := truncToInt_abs_le w
    have h2 : |((truncToInt w : Int) : ℚ)| < 2 ^ 24 := by
      have : (2 : ℚ) ^ (((24 : ℕ) : Int) - 1) ≤ 2 ^ 24 := by norm_num
      linarith
    have h3 : ((|truncToInt w| : Int) : ℚ) < ((2 ^ 24 : Int) : ℚ) := by
      push_cast
      exact h2
    exact_mod_cast h3

theorem isFloat_25_2 : IsFloat 24 (25 / 2) := ⟨25, -1, by norm_num, by norm_num⟩

theorem HBFloatToFixed_25_2 : HBFloatToFixed (25 / 2) = 3200 := by
  rw [HBFloatToFixed_of_isFloat isFloat_25_2]
  have : (25 / 2 : ℚ) * 256 = ((3200 : Int) : ℚ) := by norm_num
  rw [this, truncToInt_intCast]

theorem HBFixedToFloat_3200 : HBFixedToFloat 3200 = 25 / 2 := by
  rw [HBFixedToFloat_of_isFloat (isFloat_intCast (by norm_num))]
  norm_num

theorem HBFixedToFloat_exact {n : Int} (h : |n| ≤ 2 ^ 24) : HBFixedToFloat n = (n : ℚ) / 256 :=
  HBFixedToFloat_of_isFloat (isFloat_intCast_le (by norm_num) h)

theorem fadd_exact {a b : Int} (h : |a + b| ≤ 2 ^ 24) :
    fadd ((a : ℚ) / 256) ((b : ℚ) / 256) = ((a + b : Int) : ℚ) / 256 := by
  unfold fadd
  have hf : IsFloat 24 (((a + b : Int) : ℚ) * 2 ^ (-8 : Int)) :=
    isFloat_scale (isFloat_intCast_le (by norm_num) h) (-8)
  have he : (a : ℚ) / 256 + (b : ℚ) / 256 = ((a + b : Int) : ℚ) * 2 ^ (-8 : Int) := by
    push_cast
    norm_num
    ring
  rw [he, toFloat_of_isFloat hf]
  norm_num
  ring

theorem advanceSum_cons (g : ShapedGlyph) (rest : List ShapedGlyph) (k : Nat) :
    advanceSum (g :: rest) (k + 1) = g.x_advance + advanceSum rest k := by
  simp [advanceSum]

theorem penAfter_exact (gs : List ShapedGlyph) :
    ∀ x0 : Int, (∀ j, j ≤ gs.length → |x0 + advanceSum gs j| ≤ 2 ^ 24) →
      (∀ t ∈ gs, |t.x_advance| ≤ 2 ^ 24) →
      penAfter ((x0 : ℚ) / 256) gs = ((x0 + advanceSum gs gs.length : Int) : ℚ) / 256 := by
  induction gs with
  | nil => intro x0 _ _; simp [penAfter, advanceSum]
  | cons g rest ih =>
    intro x0 hsum hadv
    have h1 := hsum 1 (by simp)
    rw [advanceSum_cons] at h1
    simp only [advanceSum, List.take_zero, List.map_nil, List.sum_nil, add_zero] at h1
    rw [penAfter_cons, HBFixedToFloat_exact (hadv g (List.mem_cons_self _ _)), fadd_exact h1,
      ih (x0 + g.x_advance)]
    · rw [List.length_cons, advanceSum_cons, add_assoc]
    · intro j hj
      have := hsum (j + 1) (by simp; omega)
      rw [advanceSum_cons, ← add_assoc] at this
      exact this
    · intro t ht
      exact hadv t (List.mem_cons_of_mem _ ht)

theorem penAfter_take_exact (gs : List ShapedGlyph) (k : Nat) (hk : k ≤ gs.length)
    (hsum : ∀ j, j ≤ k → |advanceSum gs j| ≤ 2 ^ 24)
    (hadv : ∀ t ∈ gs.take k, |t.x_advance| ≤ 2 ^ 24) :
    penAfter 0 (gs.take k) = (advanceSum gs k : ℚ) / 256 := by
  have hlen : (gs.take k).length = k := by simp [hk]
  have h := penAfter_exact (gs.take k) 0 (by
    intro j hj
    rw [hlen] at hj
    have := hsum j hj
    simp only [advanceSum, List.take_take, min_eq_left hj, zero_add] at this ⊢
    exact this) hadv
  simp only [Int.cast_zero, zero_div] at h
  rw [h, hlen]
  simp only [advanceSum, List.take_take, min_self, zero_add]

theorem roundCoord_of_isFloat {v : ℚ} (h : IsFloat 24 v) : roundCoord v = ⌊v + 1 / 2⌋ :=
  floor_fpRound_add_half v h

theorem isFloat_zero (p : Nat) : IsFloat p 0 := ⟨0, 0, by positivity, by simp⟩

theorem isFloat_one : IsFloat 24 1 := ⟨1, 0, by norm_num, by simp⟩

theorem roundCoord_zero : roundCoord 0 = 0 := by
  rw [roundCoord_of_isFloat (isFloat_zero 24)]
  norm_num

theorem roundCoord_one : roundCoord 1 = 1 := by
  rw [roundCoord_of_isFloat isFloat_one, Int.floor_eq_iff]
  constructor <;> norm_num

theorem drawGlyphStep_eq {S : Type} (E : Engine S) (mFaces : List FT_Face)
    (load_flags x0 y0 : Int) (st : Bitmap × S) (glyph : LayoutGlyph) :
    drawGlyphStep E mFaces load_flags x0 y0 st glyph
      = (vecAt mFaces glyph.font_ix).bind (fun face =>
          (st.1.drawGlyph (E.glyph (renderGlyph E st.2 face glyph.glyph_id load_flags) face).bitmap
            (drawLeft x0 glyph (E.glyph (renderGlyph E st.2 face glyph.glyph_id load_flags) face))
            (drawTop y0 glyph
              (E.glyph (renderGlyph E st.2 face glyph.glyph_id load_flags) face))).map
            (fun surface => (surface, renderGlyph E st.2 face glyph.glyph_id load_flags))) := by
  unfold drawGlyphStep
  cases vecAt mFaces glyph.font_ix with
  | none => rfl
  | some face =>
    simp only [Option.some_bind]
    cases st.1.drawGlyph (E.glyph (renderGlyph E st.2 face glyph.glyph_id load_flags) face).bitmap
      (drawLeft x0 glyph (E.glyph (renderGlyph E st.2 face glyph.glyph_id load_flags) face))
      (drawTop y0 glyph (E.glyph (renderGlyph E st.2 face glyph.glyph_id load_flags) face)) <;> rfl

theorem findFace_withSizeError {S : Type} (E : Engine S)
    (err : S → FT_Face → Int → Int → FT_Error) (L : Layout) (σ : S) (face : FT_Face) :
    L.findFace (withSizeError E err) σ face = L.findFace E σ face := by
  unfold Layout.findFace withSizeError
  rfl

theorem layoutRun_withSizeError {S : Type} (E : Engine S)
    (err : S → FT_Face → Int → Int → FT_Error) (buf : List Nat) :
    layoutRun (withSizeError E err) buf = layoutRun E buf := by
  funext st run
  unfold layoutRun shapeRun
  simp only [findFace_withSizeError]
  rfl

/-! ## Lemmas for load flags, units, render errors and compositing order -/

theorem int_land_zero (n : ℤ) : Int.land n 0 = 0 := by
  cases n <;> simp [Int.land, Nat.ldiff]

theorem int_land_one (h : ℤ) : Int.land h 1 = cond (h.testBit 0) 1 0 := by
  have hd := Int.bit_decomp h
  have h1 : (1 : ℤ) = Int.bit true 0 := by simp [Int.bit_val]
  conv_lhs => rw [← hd, h1, Int.land_bit, int_land_zero]
  have ht : h.testBit 0 = Int.bodd h := by
    conv_lhs => rw [← hd, Int.testBit_bit_zero]
  rw [ht]
  cases Int.bodd h <;> simp [Int.bit_val]

theorem int_land_two (h : ℤ) : Int.land h 2 = cond (h.testBit 1) 2 0 := by
  have hd := Int.bit_decomp h
  have hd2 := Int.bit_decomp (Int.div2 h)
  have h2 : (2 : ℤ) = Int.bit false (Int.bit true 0) := by simp [Int.bit_val]
  conv_lhs => rw [← hd, ← hd2, h2, Int.land_bit, Int.land_bit, int_land_zero]
  have ht : h.testBit 1 = Int.bodd (Int.div2 h) := by
    conv_lhs => rw [← hd, Int.testBit_bit_succ, ← hd2, Int.testBit_bit_zero]
  rw [ht]
  cases Int.bodd (Int.div2 h) <;> simp [Int.bit_val]

theorem loadFlags_eq (mProps : CssProperties) :
    loadFlags mProps =
      if mProps.hasTag CssTag.minikinHinting then
        Int.lor
          (if (mProps.value CssTag.minikinHinting).getIntValue.testBit 0 then FT_LOAD_NO_HINTING
            else 0)
          (if (mProps.value CssTag.minikinHinting).getIntValue.testBit 1 then FT_LOAD_NO_AUTOHINT
            else 0)
      else FT_LOAD_DEFAULT := by
  unfold loadFlags
  simp only [int_land_one, int_land_two]
  split
  · cases (mProps.value CssTag.minikinHinting).getIntValue.testBit 0 <;>
      cases (mProps.value CssTag.minikinHinting).getIntValue.testBit 1 <;> decide
  · rfl

theorem testBit_zero_iff (h : ℤ) : h.testBit 0 = true ↔ h % 2 = 1 := by
  have hd := Int.bodd_add_div2 h
  have ht : h.testBit 0 = Int.bodd h := by
    conv_lhs => rw [← Int.bit_decomp h, Int.testBit_bit_zero]
  rw [ht]
  cases hb : Int.bodd h <;> simp [hb] at hd ⊢ <;> omega

theorem testBit_one_iff (h : ℤ) : h.testBit 1 = true ↔ (h / 2) % 2 = 1 := by
  have ht : h.testBit 1 = (h / 2).testBit 0 := by
    conv_lhs => rw [← Int.bit_decomp h, Int.testBit_bit_succ, Int.div2_val]
  rw [ht, testBit_zero_iff]

theorem HBFloatToFixed_HBFixedToFloat {n : Int} (h : |n| ≤ 2 ^ 24) :
    HBFloatToFixed (HBFixedToFloat n) = n := by
  have hf : IsFloat 24 ((n : ℚ) / 256) := by
    have := isFloat_scale (isFloat_intCast_le (by norm_num : 1 ≤ 24) h) (-8)
    have e : (n : ℚ) * 2 ^ (-8 : Int) = (n : ℚ) / 256 := by norm_num; ring
    rw [e] at this
    exact this
  rw [HBFixedToFloat_exact h, HBFloatToFixed_of_isFloat hf]
  have : (n : ℚ) / 256 * 256 = ((n : Int) : ℚ) := by ring
  rw [this, truncToInt_intCast]

theorem wrapInt32_of_fits {v : Int} (h0 : -2 ^ 31 ≤ v) (h1 : v < 2 ^ 31) : wrapInt32 v = v := by
  unfold wrapInt32
  rw [Int.emod_eq_of_lt (by omega) (by omega)]
  omega

theorem ft_pos_to_hb_of_fits {p : Int} (h0 : -2 ^ 31 ≤ 4 * p) (h1 : 4 * p < 2 ^ 31) :
    ft_pos_to_hb p = 4 * p := by
  unfold ft_pos_to_hb
  have : p <<< (2 : Int) = 4 * p := by
    have := Int.shiftLeft_eq_mul_pow p 2
    simp only [Nat.cast_ofNat] at this
    rw [this]
    norm_num
    ring
  rw [this, wrapInt32_of_fits h0 h1]

theorem log_eq_of_bounds {q : ℚ} {l : Int} (h1 : (2 : ℚ) ^ l ≤ |q|) (h2 : |q| < 2 ^ (l + 1)) :
    Int.log 2 |q| = l := by
  have hpos : 0 < |q| := lt_of_lt_of_le (two_zpow_pos l) h1
  apply le_antisymm
  · have := (Int.lt_zpow_iff_log_lt (b := 2) (by norm_num) hpos).mp (by exact_mod_cast h2)
    omega
  · exact (Int.zpow_le_iff_le_log (b := 2) (by norm_num) hpos).mp (by exact_mod_cast h1)

theorem toFloat_67108868 : toFloat 67108868 = 67108864 := by
  unfold toFloat
  have hq : (67108868 : ℚ) ≠ 0 := by norm_num
  have hl : Int.log 2 |(67108868 : ℚ)| = 26 :=
    log_eq_of_bounds (by norm_num [abs_of_pos]) (by norm_num [abs_of_pos])
  rw [fpRound_eq 24 hq, hl]
  have e : (67108868 : ℚ) / 2 ^ ((26 : Int) - (((24 : ℕ) : Int) - 1))
      = ((8388608 : Int) : ℚ) + 1 / 2 := by norm_num
  rw [e, roundNearestEven_add_small 8388608 (1 / 2) (by decide) (by norm_num) (by norm_num)]
  norm_num

theorem HBFixedToFloat_67108868 : HBFixedToFloat 67108868 = 262144 := by
  unfold HBFixedToFloat
  have : ((67108868 : Int) : ℚ) = 67108868 := by norm_num
  rw [this, toFloat_67108868]
  have hf : IsFloat 24 (67108864 : ℚ) := ⟨1, 26, by norm_num, by norm_num⟩
  rw [scalbnf_of_isFloat hf]
  norm_num

theorem HBFixedToFloat_ft_pos {p : Int} (h : |p| ≤ 2 ^ 24) :
    HBFixedToFloat (4 * p) = (p : ℚ) / 64 := by
  have hf : IsFloat 24 (((4 * p : Int)) : ℚ) := by
    have := isFloat_scale (isFloat_intCast_le (by norm_num : 1 ≤ 24) h) 2
    have e : (p : ℚ) * 2 ^ (2 : Int) = ((4 * p : Int) : ℚ) := by push_cast; norm_num; ring
    rw [e] at this
    exact this
  rw [HBFixedToFloat_of_isFloat hf]
  push_cast
  ring

theorem drawGlyphStep_withGlyphErrors {S : Type} (E : Engine S)
    (errLoad : S → FT_Face → Nat → Int → FT_Error) (errRender : S → FT_Face → FT_Error)
    (mFaces : List FT_Face) (load_flags x0 y0 : Int) :
    drawGlyphStep (withGlyphErrors E errLoad errRender) mFaces load_flags x0 y0
      = drawGlyphStep E mFaces load_flags x0 y0 := rfl

theorem drawGlyph_pixel {self s' : Bitmap} {bitmap : FT_Bitmap} {x y : Int}
    (h : self.drawGlyph bitmap x y = some s') (xx yy : Int) (h0 : 0 ≤ xx)
    (h1 : xx < self.width) : s'.pixel xx yy = drawnPixel self bitmap x y xx yy := by
  obtain ⟨_, _, _, hpix, _⟩ := drawGlyph_spec h
  unfold drawnPixel srcIndex
  by_cases hc : InClip self bitmap x y xx yy
  · obtain ⟨d, s, hd, hs, hnew⟩ := (hpix xx yy h0 h1).1 hc
    rw [if_pos hc, hd, hs, hnew]
    rfl
  · rw [if_neg hc, (hpix xx yy h0 h1).2 hc]

theorem inClip_congr {s s' : Bitmap} (hw : s'.width = s.width) (hh : s'.height = s.height)
    (bitmap : FT_Bitmap) (x y xx yy : Int) :
    InClip s' bitmap x y xx yy ↔ InClip s bitmap x y xx yy := by
  unfold InClip
  rw [hw, hh]

theorem drawGlyph_some_congr {s s' r : Bitmap} {bitmap : FT_Bitmap} {x y : Int}
    (hs' : s'.WF) (hw : s'.width = s.width) (hh : s'.height = s.height)
    (h : s.drawGlyph bitmap x y = some r) : ∃ r', s'.drawGlyph bitmap x y = some r' := by
  obtain ⟨_, _, _, hpix, _⟩ := drawGlyph_spec h
  apply drawGlyph_some hs'
  intro xx yy hc
  have hc' := (inClip_congr hw hh bitmap x y xx yy).mp hc
  have hx0 : 0 ≤ xx := le_trans (le_max_left 0 x) hc'.1
  have hx1 : xx < s.width := lt_of_lt_of_le hc'.2.1 (min_le_left _ _)
  obtain ⟨d, sv, _, hsv, _⟩ := (hpix xx yy hx0 hx1).1 hc'
  obtain ⟨h0, h1⟩ := readAt_eq_some hsv
  exact ⟨h0, by omega⟩

theorem bitmap_ext {s1 s2 : Bitmap} (hw1 : s1.WF) (hw : s2.width = s1.width)
    (hh : s2.height = s1.height) (hl : s2.buf.length = s1.buf.length)
    (hpix : ∀ xx yy : Int, 0 ≤ xx → xx < s1.width → 0 ≤ yy → yy < s1.height →
      s2.pixel xx yy = s1.pixel xx yy) : s2 = s1 := by
  obtain ⟨h0, h1, h2, _⟩ := hw1
  have hbuf : s2.buf = s1.buf := by
    apply List.ext_getElem?
    intro n
    by_cases hn : n < s1.buf.length
    · have hnw : (n : Int) < s1.width * s1.height := by rw [← h2]; exact_mod_cast hn
      have hwpos : 0 < s1.width := by
        by_contra hle
        have : s1.width = 0 := by omega
        rw [this] at hnw
        simp at hnw
        omega
      have hx0 : 0 ≤ (n : Int) % s1.width := Int.emod_nonneg _ hwpos.ne'
      have hx1 : (n : Int) % s1.width < s1.width := Int.emod_lt_of_pos _ hwpos
      have hy0 : 0 ≤ (n : Int) / s1.width := Int.ediv_nonneg (by omega) h0
      have hy1 : (n : Int) / s1.width < s1.height :=
        Int.ediv_lt_of_lt_mul hwpos (by rw [mul_comm]; exact hnw)
      have hp := hpix _ _ hx0 hx1 hy0 hy1
      have e : (n : Int) / s1.width * s1.width + (n : Int) % s1.width = n :=
        Int.ediv_add_emod' _ _
      unfold Bitmap.pixel at hp
      rw [hw, e] at hp
      simpa [readAt] using hp
    · rw [List.getElem?_eq_none (by omega), List.getElem?_eq_none (by omega)]
  cases s1
  cases s2
  simp only at hw hh hbuf
  subst hw hh hbuf
  rfl

theorem blend_blend_comm (d a b : Nat) : blend (blend d a) b = blend (blend d b) a := by
  unfold blend
  omega

theorem drawnPixel_comm {self sa sb : Bitmap} {a b : FT_Bitmap} {xa ya xb yb : Int}
    (ha : self.drawGlyph a xa ya = some sa) (hb : self.drawGlyph b xb yb = some sb)
    (xx yy : Int) (h0 : 0 ≤ xx) (h1 : xx < self.width) :
    drawnPixel sa b xb yb xx yy = drawnPixel sb a xa ya xx yy := by
  obtain ⟨hwa, hha, _⟩ := drawGlyph_spec ha
  obtain ⟨hwb, hhb, _⟩ := drawGlyph_spec hb
  unfold drawnPixel
  rw [drawGlyph_pixel ha xx yy h0 h1, drawGlyph_pixel hb xx yy h0 h1]
  unfold drawnPixel
  simp only [inClip_congr hwa hha, inClip_congr hwb hhb]
  cases self.pixel xx yy <;>
    cases readAt a.buffer (srcIndex a xa ya xx yy) <;>
    cases readAt b.buffer (srcIndex b xb yb xx yy) <;>
    by_cases ca : InClip self a xa ya xx yy <;>
    by_cases cb : InClip self b xb yb xx yy <;>
    simp [ca, cb, blend_blend_comm]

theorem drawGlyph_comm_some {self sa sb : Bitmap} {a b : FT_Bitmap} {xa ya xb yb : Int}
    (hw : self.WF) (ha : self.drawGlyph a xa ya = some sa)
    (hb : self.drawGlyph b xb yb = some sb) :
    ∃ r, sa.drawGlyph b xb yb = some r ∧ sb.drawGlyph a xa ya = some r := by
  obtain ⟨hwa, hha, hla, _⟩ := drawGlyph_spec ha
  obtain ⟨hwb, hhb, hlb, _⟩ := drawGlyph_spec hb
  have hwfa := drawGlyph_wf hw ha
  have hwfb := drawGlyph_wf hw hb
  obtain ⟨rab, hrab⟩ := drawGlyph_some_congr hwfa hwa hha hb
  obtain ⟨rba, hrba⟩ := drawGlyph_some_congr hwfb hwb hhb ha
  obtain ⟨hw1, hh1, hl1, _⟩ := drawGlyph_spec hrab
  obtain ⟨hw2, hh2, hl2, _⟩ := drawGlyph_spec hrba
  refine ⟨rab, hrab, ?_⟩
  rw [hrba]
  congr 1
  apply bitmap_ext (drawGlyph_wf hwfa hrab) (by rw [hw1, hw2, hwa, hwb])
    (by rw [hh1, hh2, hha, hhb]) (by rw [hl1, hl2, hla, hlb])
  intro xx yy hx0 hx1 _ _
  rw [hw1, hwa] at hx1
  rw [drawGlyph_pixel hrab xx yy (by omega) (by rw [hwa]; exact hx1),
    drawGlyph_pixel hrba xx yy (by omega) (by rw [hwb]; exact hx1)]
  exact (drawnPixel_comm ha hb xx yy hx0 hx1).symm

theorem drawGlyph_comm (self : Bitmap) (a b : FT_Bitmap) (xa ya xb yb : Int) (hw : self.WF) :
    (self.drawGlyph a xa ya).bind (fun s => s.drawGlyph b xb yb)
      = (self.drawGlyph b xb yb).bind (fun s => s.drawGlyph a xa ya) := by
  cases ha : self.drawGlyph a xa ya with
  | none =>
    cases hb : self.drawGlyph b xb yb with
    | none => rfl
    | some sb =>
      simp only [Option.none_bind, Option.some_bind]
      cases hba : sb.drawGlyph a xa ya with
      | none => rfl
      | some r =>
        obtain ⟨hwb, hhb, _⟩ := drawGlyph_spec hb
        obtain ⟨r', hr'⟩ := drawGlyph_some_congr hw hwb.symm hhb.symm hba
        rw [ha] at hr'
        simp at hr'
  | some sa =>
    cases hb : self.drawGlyph b xb yb with
    | none =>
      simp only [Option.none_bind, Option.some_bind]
      cases hab : sa.drawGlyph b xb yb with
      | none => rfl
      | some r =>
        obtain ⟨hwa, hha, _⟩ := drawGlyph_spec ha
        obtain ⟨r', hr'⟩ := drawGlyph_some_congr hw hwa.symm hha.symm hab
        rw [hb] at hr'
        simp at hr'
    | some sb =>
      obtain ⟨r, h1, h2⟩ := drawGlyph_comm_some hw ha hb
      simp only [Option.some_bind, h1, h2]

/-! ## Lemmas on the engines in `doLayout` and `draw` -/

theorem findFace_eq {S : Type} (E : Engine S) (L : Layout) (σ : S) (face : FT_Face) :
    L.findFace E σ face
      = if face ∈ L.mFaces then ((L.mFaces.indexOf face : Int), L, σ)
        else ((L.mFaces.indexOf face : Int),
          { L with mFaces := L.mFaces ++ [face],
                   mHbFonts := L.mHbFonts ++ [hbFontFor L.mProps face] },
          (E.FT_Set_Pixel_Sizes σ face 0
            (truncToInt (L.mProps.value CssTag.fontSize).getFloatValue)).2) := by
  unfold Layout.findFace
  rw [findFaceLoop_eq]
  by_cases hf : face ∈ L.mFaces
  · simp [hf]
  · simp [hf, List.indexOf_eq_length.mpr hf, hbFontFor]

theorem vecAt_map_indexOf (props : CssProperties) (table : List FT_Face) (face : FT_Face)
    (hf : face ∈ table) :
    vecAt (table.map (hbFontFor props)) (table.indexOf face : Int)
      = some (hbFontFor props face) := by
  have hlt := List.indexOf_lt_length.mpr hf
  simp [vecAt, List.getElem?_map, List.getElem?_eq_getElem hlt, List.getElem_indexOf hlt]

theorem shapedRuns_eq_engineRuns {S : Type} (E : Engine S) (buf : List Nat)
    (hstep : ShapesByEngine E buf) (runs : List Run) :
    ∀ st : LayoutState S,
      st.layout.mHbFonts = st.layout.mFaces.map (hbFontFor st.layout.mProps) →
      shapedRuns E buf st runs
        = engineRuns E st.layout.mProps buf st.layout.mFaces st.σ runs := by
  induction runs with
  | nil => intro st _; rfl
  | cons run rest ih =>
    intro st hfonts
    obtain ⟨st1, hsr, hfaces, hhb, hprops, hσ⟩ := hstep st run hfonts
    have hfold := layoutGlyph_foldl (st.layout.mFaces.indexOf run.font : Int)
      ((E.hb_shape
        (if run.font ∈ st.layout.mFaces then st.σ
          else (E.FT_Set_Pixel_Sizes st.σ run.font 0
            (truncToInt (st.layout.mProps.value CssTag.fontSize).getFloatValue)).2)
        (hbFontFor st.layout.mProps run.font) buf run.start (run.end_ - run.start)).1) st1
    simp only [shapedRuns, hsr, engineRuns]
    congr 1
    rw [ih]
    · rw [hfold]
      simp only [hfaces, hprops, hσ]
    · rw [hfold]
      simp only
      rw [hhb, hprops]

theorem doLayoutRuns_eq_engineRuns {S : Type} (E : Engine S) (L : Layout) (σ : S)
    (buf : List Nat) (hstep : ShapesByEngine E buf) :
    doLayoutRuns E L σ buf
      = engineRuns E L.mProps buf [] σ (L.mCollection.itemize buf (styleFromCss L.mProps)) :=
  shapedRuns_eq_engineRuns E buf hstep _ (doLayoutInit L σ) rfl

theorem engineRuns_run {S : Type} (E : Engine S) (props : CssProperties) (buf : List Nat)
    (runs : List Run) :
    ∀ (table : List FT_Face) (σ : S),
      (engineRuns E props buf table σ runs).map (fun sr => sr.run) = runs := by
  induction runs with
  | nil => intro table σ; rfl
  | cons run rest ih => intro table σ; simp [engineRuns, ih]

theorem engineRuns_shaped {S : Type} (E : Engine S) (props : CssProperties) (buf : List Nat)
    (runs : List Run) :
    ∀ (table : List FT_Face) (σ : S), ∀ sr ∈ engineRuns E props buf table σ runs,
      ∃ σ1 : S, sr.shaped = (E.hb_shape σ1 (hbFontFor props sr.run.font) buf sr.run.start
        (sr.run.end_ - sr.run.start)).1 := by
  induction runs with
  | nil => intro table σ sr h; simp [engineRuns] at h
  | cons run rest ih =>
    intro table σ sr h
    simp only [engineRuns, List.mem_cons] at h
    rcases h with rfl | h
    · exact ⟨_, rfl⟩
    · exact ih _ _ sr h

theorem isFloat_fpRound {p : Nat} (hp : 1 ≤ p) (q : ℚ) : IsFloat p (fpRound p q) := by
  by_cases hq : q = 0
  · subst hq
    simp only [fpRound, if_true]
    exact isFloat_zero p
  rw [fpRound_eq p hq]
  apply isFloat_scale
  apply isFloat_intCast_le hp
  obtain ⟨_, hu⟩ := log_bounds hq
  set L := Int.log 2 |q|
  have hpos := two_zpow_pos (L - ((p : Int) - 1))
  set u : ℚ := 2 ^ (L - ((p : Int) - 1)) with hu'
  have ht : |q / u| < 2 ^ (p : Int) := by
    rw [abs_div, abs_of_pos hpos, div_lt_iff₀ hpos, hu', ← zpow_add₀ (by norm_num)]
    have e : (p : Int) + (L - ((p : Int) - 1)) = L + 1 := by ring
    rw [e]
    exact hu
  have herr := roundNearestEven_err (q / u)
  have h1 : |(roundNearestEven (q / u) : ℚ)| < 2 ^ (p : Int) + 1 := by
    have := abs_sub_abs_le_abs_sub (roundNearestEven (q / u) : ℚ) (q / u)
    linarith
  have h2 : ((|roundNearestEven (q / u)| : Int) : ℚ) < ((2 ^ p + 1 : Int) : ℚ) := by
    push_cast
    simpa using h1
  have h3 : |roundNearestEven (q / u)| < 2 ^ p + 1 := by exact_mod_cast h2
  omega

theorem isFloat_fadd (a b : ℚ) : IsFloat 24 (fadd a b) := isFloat_fpRound (by norm_num) _

theorem glyphsFrom_isFloat (font_ix : Int) (y : ℚ) (gs : List ShapedGlyph) :
    ∀ (x : ℚ), ∀ g ∈ glyphsFrom font_ix x y gs, IsFloat 24 g.x ∧ IsFloat 24 g.y := by
  induction gs with
  | nil => intro x g h; simp [glyphsFrom] at h
  | cons s rest ih =>
    intro x g h
    simp only [glyphsFrom, List.mem_cons] at h
    rcases h with rfl | h
    · exact ⟨isFloat_fadd _ _, isFloat_fadd _ _⟩
    · exact ih _ g h

theorem glyphsOf_isFloat (y : ℚ) (trace : List ShapedRun) :
    ∀ (x : ℚ), ∀ g ∈ glyphsOf x y trace, IsFloat 24 g.x ∧ IsFloat 24 g.y := by
  induction trace with
  | nil => intro x g h; simp [glyphsOf] at h
  | cons sr rest ih =>
    intro x g h
    simp only [glyphsOf, List.mem_append] at h
    rcases h with h | h
    · exact glyphsFrom_isFloat _ _ _ _ g h
    · exact ih _ g h

theorem doLayout_isFloat {S : Type} (E : Engine S) (L : Layout) (σ : S) (buf : List Nat)
    (L' : Layout) (σ' : S) (h : L.doLayout E σ buf = some (L', σ')) :
    ∀ g ∈ L'.mGlyphs, IsFloat 24 g.x ∧ IsFloat 24 g.y := by
  obtain ⟨L'', σ'', h', _, hg, _⟩ := doLayout_spec E L σ buf
  rw [h] at h'
  simp only [Option.some.injEq, Prod.mk.injEq] at h'
  obtain ⟨rfl, rfl⟩ := h'
  rw [hg]
  exact glyphsOf_isFloat 0 _ 0

theorem toFloat_16777217 : toFloat 16777217 = 16777216 := by
  unfold toFloat
  have hq : (16777217 : ℚ) ≠ 0 := by norm_num
  have hl : Int.log 2 |(16777217 : ℚ)| = 24 :=
    log_eq_of_bounds (by norm_num [abs_of_pos]) (by norm_num [abs_of_pos])
  rw [fpRound_eq 24 hq, hl]
  have e : (16777217 : ℚ) / 2 ^ ((24 : Int) - (((24 : ℕ) : Int) - 1))
      = ((8388608 : Int) : ℚ) + 1 / 2 := by norm_num
  rw [e, roundNearestEven_add_small 8388608 (1 / 2) (by decide) (by norm_num) (by norm_num)]
  norm_num

theorem HBFixedToFloat_16777217 : HBFixedToFloat 16777217 = 65536 := by
  unfold HBFixedToFloat
  have : ((16777217 : Int) : ℚ) = 16777217 := by norm_num
  rw [this, toFloat_16777217]
  have hf : IsFloat 24 (16777216 : ℚ) := ⟨1, 24, by norm_num, by norm_num⟩
  rw [scalbnf_of_isFloat hf]
  norm_num

theorem HBFixedToFloat_zero : HBFixedToFloat 0 = 0 := by
  rw [HBFixedToFloat_exact (by norm_num)]
  norm_num

theorem fadd_zero_65536 : fadd 0 65536 = 65536 := by
  unfold fadd
  rw [zero_add]
  exact toFloat_of_isFloat ⟨1, 16, by norm_num, by norm_num⟩

theorem fadd_zero_zero : fadd 0 0 = 0 := by
  unfold fadd
  rw [zero_add]
  exact toFloat_of_isFloat (isFloat_zero 24)

theorem foldlM_congr_mem {α β : Type} (l : List α) (f f' : β → α → Option β) :
    ∀ s : β, (∀ a ∈ l, ∀ st, f st a = f' st a) → l.foldlM f s = l.foldlM f' s := by
  induction l with
  | nil => intro s _; rfl
  | cons a rest ih =>
    intro s h
    simp only [List.foldlM_cons]
    rw [h a (List.mem_cons_self _ _) s]
    cases f' s a with
    | none => rfl
    | some s' =>
      exact ih s' (fun b hb st => h b (List.mem_cons_of_mem _ hb) st)

theorem renderGlyph_recordLoads {S : Type} (E : Engine S) (σ : S)
    (log : List (FT_Face × Nat × Int)) (face : FT_Face) (glyph_id : Nat) (load_flags : Int) :
    renderGlyph (recordLoads E) (σ, log) face glyph_id load_flags
      = (renderGlyph E σ face glyph_id load_flags, log ++ [(face, glyph_id, load_flags)]) := rfl

theorem draw_recordLoads {S : Type} (E : Engine S) (mFaces : List FT_Face)
    (load_flags x0 y0 : Int) (glyphs : List LayoutGlyph) :
    ∀ (surface : Bitmap) (σ : S) (log : List (FT_Face × Nat × Int)),
      glyphs.foldlM (drawGlyphStep (recordLoads E) mFaces load_flags x0 y0) (surface, (σ, log))
        = (glyphs.foldlM (drawGlyphStep E mFaces load_flags x0 y0) (surface, σ)).map
            (fun r => (r.1, (r.2,
              log ++ glyphs.map (fun g =>
                ((vecAt mFaces g.font_ix).getD 0, g.glyph_id, load_flags))))) := by
  induction glyphs with
  | nil => intro surface σ log; simp
  | cons g rest ih =>
    intro surface σ log
    simp only [List.foldlM_cons, drawGlyphStep_eq]
    cases hv : vecAt mFaces g.font_ix with
    | none => rfl
    | some face =>
      simp only [Option.some_bind, renderGlyph_recordLoads]
      have hg : (recordLoads E).glyph (renderGlyph E σ face g.glyph_id load_flags,
          log ++ [(face, g.glyph_id, load_flags)]) face
          = E.glyph (renderGlyph E σ face g.glyph_id load_flags) face := rfl
      rw [hg]
      cases surface.drawGlyph (E.glyph (renderGlyph E σ face g.glyph_id load_flags) face).bitmap
          (drawLeft x0 g (E.glyph (renderGlyph E σ face g.glyph_id load_flags) face))
          (drawTop y0 g (E.glyph (renderGlyph E σ face g.glyph_id load_flags) face)) with
      | none => rfl
      | some s' =>
        simp only [Option.map_some', Option.some_bind, ih]
        simp [hv]

/-! ## The claims -/

/-- C1 (the code departs from the claim): a glyph bitmap of one row `[10, 20, 30]` drawn at
`x = -1`, `y = 0` onto a blank 1 x 1 surface.  The surface pixel `(0, 0)` lies under column
`0 - (-1) = 1` of row `0` of the bitmap, whose byte is 20, so the claim gives
`min(255, 0 + 20) = 20`; `drawGlyph` stores 30, the byte of column 2, because `src` is
advanced by `x0 - x` and then indexed by `xx - x`. -/
theorem C1_drawGlyph_negative_x :
    (Bitmap.new 1 1).drawGlyph ⟨1, 3, [10, 20, 30]⟩ (-1) 0 = some ⟨1, 1, [30]⟩ ∧
    (Bitmap.new 1 1).pixel 0 0 = some 0 ∧
    FT_Bitmap.pixel ⟨1, 3, [10, 20, 30]⟩ (0 - (-1)) (0 - 0) = some 20 ∧
    min 255 (0 + 20) ≠ 30 := by
  decide

/-- C2: starting from an empty face table, the calls `findFace` for a sequence of faces
return, call by call, the rank of the face among the distinct faces in first-encounter order
(so the same face always gets the same index); the table left has no duplicate, holds the
face of rank `i` at index `i`, and its size is the number `N` of distinct faces, the indices
returned being exactly `0 .. N - 1`; and a call grows the table only when its face is new. -/
theorem C2_findFace_rank {S : Type} (E : Engine S) (L : Layout) (σ : S)
    (faces : List FT_Face) :
    (findFaces E { L with mFaces := [], mHbFonts := [] } σ faces).1
      = faces.map (fun f => (rank faces f : Int)) ∧
    (findFaces E { L with mFaces := [], mHbFonts := [] } σ faces).2.1.mFaces.Nodup ∧
    (findFaces E { L with mFaces := [], mHbFonts := [] } σ faces).2.1.mFaces.length
      = faces.toFinset.card ∧
    (∀ f ∈ faces,
      (findFaces E { L with mFaces := [], mHbFonts := [] } σ faces).2.1.mFaces[rank faces f]?
        = some f) ∧
    (∀ i : Nat, (i : Int) ∈ (findFaces E { L with mFaces := [], mHbFonts := [] } σ faces).1
      ↔ i < faces.toFinset.card) ∧
    (∀ (L' : Layout) (σ' : S) (f : FT_Face),
      (L'.findFace E σ' f).2.1.mFaces
        = if f ∈ L'.mFaces then L'.mFaces else L'.mFaces ++ [f]) := by
  obtain ⟨h1, h2⟩ := findFaces_spec E faces { L with mFaces := [], mHbFonts := [] } σ
  simp only at h1 h2
  have hnd : (seen [] faces).Nodup := seen_nodup _ [] List.nodup_nil
  have hlen : (seen [] faces).length = faces.toFinset.card := by
    rw [← List.toFinset_card_of_nodup hnd]
    congr 1
    ext a
    simp [seen_mem]
  have hrank : faces.map (fun f => ((seen [] faces).indexOf f : Int))
      = faces.map (fun f => (rank faces f : Int)) := by
    apply List.map_congr_left
    intro f hf
    rw [seen_indexOf_eq_rank faces f hf]
  rw [h1, h2, hrank]
  refine ⟨rfl, hnd, hlen, ?_, ?_, fun L' σ' f => (findFace_spec E L' σ' f).2.1⟩
  · intro f hf
    have hmem : f ∈ seen [] faces := (seen_mem faces [] f).mpr (Or.inr hf)
    have hlt : (seen [] faces).indexOf f < (seen [] faces).length :=
      List.indexOf_lt_length.mpr hmem
    rw [← seen_indexOf_eq_rank faces f hf, List.getElem?_eq_getElem hlt,
      List.getElem_indexOf hlt]
  · intro i
    rw [← hlen]
    simp only [List.mem_map]
    constructor
    · rintro ⟨f, hf, hfi⟩
      have hmem : f ∈ seen [] faces := (seen_mem faces [] f).mpr (Or.inr hf)
      have hlt : (seen [] faces).indexOf f < (seen [] faces).length :=
        List.indexOf_lt_length.mpr hmem
      rw [seen_indexOf_eq_rank faces f hf] at hlt
      omega
    · intro hi
      have hmem : (seen [] faces)[i] ∈ faces := by
        have := (seen_mem faces [] ((seen [] faces)[i])).mp (List.getElem_mem _)
        simpa using this
      refine ⟨(seen [] faces)[i], hmem, ?_⟩
      rw [← seen_indexOf_eq_rank faces _ hmem, List.indexOf_getElem hnd i hi]

/-- C3, counterexample: an engine that shapes the one run of the text to one glyph with
`x_offset = 2 ^ 24 + 1`, a value of the 32-bit position type.  The claim puts the glyph at
`x = 0 + 16777217 / 256`; the conversion of the offset to `float` rounds it to `2 ^ 24`, and
`doLayout` leaves the glyph at `x = 65536`. -/
theorem C3_counterexample :
    (wideOffsetEngine.hb_shape () (hbFontFor sampleLayout.mProps 7) [65] 0 1).1
      = [⟨42, 0, 0, 16777217, 0⟩] ∧
    (16777217 : Int) < 2 ^ 31 ∧
    (sampleLayout.doLayout wideOffsetEngine () [65]).map (fun r => r.1.mGlyphs)
      = some [{ font_ix := 0, glyph_id := 42, x := 65536, y := 0 }] ∧
    (0 : ℚ) + 16777217 / 256 ≠ 65536 := by
  refine ⟨rfl, by norm_num, ?_, by norm_num⟩
  obtain ⟨L', σ', h, _, hg, _⟩ := doLayout_spec wideOffsetEngine sampleLayout () [65]
  have hr : shapedRuns wideOffsetEngine [65] (doLayoutInit sampleLayout ())
      (sampleLayout.mCollection.itemize [65] (styleFromCss sampleLayout.mProps))
    = [{ run := { font := 7, start := 0, end_ := 1 }, font_ix := 0,
         shaped := [⟨42, 0, 0, 16777217, 0⟩] }] := by
    decide
  rw [hr] at hg
  rw [h]
  simp only [Option.map_some', hg, glyphsOf, glyphsFrom, List.append_nil, HBFixedToFloat_16777217,
    HBFixedToFloat_zero, fadd_zero_65536, fadd_zero_zero]

/-- C3 as amended: `doLayout` returns, for every list of runs `itemize` gives and whatever
`hb_shape` answers.  The runs are shaped in order, each by `hb_shape` with the handle of its
face over its code units (the first from the engine state `FT_Set_Pixel_Sizes` leaves, the
others as `engineRuns` threads the engine state), and the glyph list holds one glyph per
shaped glyph, in run order and in engine order within a run: the `k`-th glyph has the
engine's glyph id, `x = P + HBFixedToFloat(x_offset)` and `y = 0 + HBFixedToFloat(y_offset)`,
where `P` is the sum, from 0 and across run boundaries, of `HBFixedToFloat(x_advance)` over
the glyphs before it, the sums being the `float` sums of the code.  While the fixed-point
values and their partial sums stay within `2 ^ 24` no sum rounds: `x` is exactly
`(sum of x_advance + x_offset) / 256` and `y` is exactly `y_offset / 256`. -/
theorem C3_doLayout_glyphs {S : Type} (E : Engine S) (L : Layout) (σ : S) (buf : List Nat) :
    ∃ L' σ', L.doLayout E σ buf = some (L', σ') ∧
      (engineRuns E L.mProps buf [] σ
        (L.mCollection.itemize buf (styleFromCss L.mProps))).map (fun sr => sr.run)
        = L.mCollection.itemize buf (styleFromCss L.mProps) ∧
      (∀ sr ∈ engineRuns E L.mProps buf [] σ
          (L.mCollection.itemize buf (styleFromCss L.mProps)),
        ∃ σ1 : S, sr.shaped = (E.hb_shape σ1 (hbFontFor L.mProps sr.run.font) buf sr.run.start
          (sr.run.end_ - sr.run.start)).1) ∧
      (∀ (run : Run) (rest : List Run),
        L.mCollection.itemize buf (styleFromCss L.mProps) = run :: rest →
        engineShaped E L σ buf
          = (E.hb_shape
              (E.FT_Set_Pixel_Sizes σ run.font 0
                (truncToInt (L.mProps.value CssTag.fontSize).getFloatValue)).2
              (hbFontFor L.mProps run.font) buf run.start (run.end_ - run.start)).1 ++
            ((engineRuns E L.mProps buf [run.font]
              (E.hb_shape
                (E.FT_Set_Pixel_Sizes σ run.font 0
                  (truncToInt (L.mProps.value CssTag.fontSize).getFloatValue)).2
                (hbFontFor L.mProps run.font) buf run.start (run.end_ - run.start)).2
              rest).map (fun sr => sr.shaped)).flatten) ∧
      L'.mGlyphs.length = (engineShaped E L σ buf).length ∧
      ∀ (k : Nat) (s : ShapedGlyph), (engineShaped E L σ buf)[k]? = some s →
        ∃ g, L'.mGlyphs[k]? = some g ∧ g.glyph_id = s.codepoint ∧
          g.x = fadd (penAfter 0 ((engineShaped E L σ buf).take k))
            (HBFixedToFloat s.x_offset) ∧
          g.y = fadd 0 (HBFixedToFloat s.y_offset) ∧
          ((∀ j, j ≤ k → |advanceSum (engineShaped E L σ buf) j| ≤ 2 ^ 24) →
            (∀ t ∈ (engineShaped E L σ buf).take k, |t.x_advance| ≤ 2 ^ 24) →
            |s.x_offset| ≤ 2 ^ 24 → |s.y_offset| ≤ 2 ^ 24 →
            |advanceSum (engineShaped E L σ buf) k + s.x_offset| ≤ 2 ^ 24 →
            g.x = ((advanceSum (engineShaped E L σ buf) k + s.x_offset : Int) : ℚ) / 256 ∧
            g.y = (s.y_offset : ℚ) / 256) := by
  have hstep : ShapesByEngine E buf := by
    intro st run hfonts
    unfold shapeRun
    rw [findFace_eq]
    by_cases hf : run.font ∈ st.layout.mFaces
    · simp only [if_pos hf]
      rw [hfonts, vecAt_map_indexOf _ _ _ hf]
      exact ⟨_, rfl, rfl, hfonts, rfl, rfl⟩
    · simp only [if_neg hf]
      have hv : vecAt (st.layout.mHbFonts ++ [hbFontFor st.layout.mProps run.font])
          (st.layout.mFaces.indexOf run.font : Int)
          = some (hbFontFor st.layout.mProps run.font) := by
        rw [List.indexOf_eq_length.mpr hf, hfonts]
        simp [vecAt]
      rw [hv]
      refine ⟨_, rfl, rfl, ?_, rfl, rfl⟩
      simp [hfonts]
  obtain ⟨L', σ', h, _, hg, _⟩ := doLayout_spec E L σ buf
  have htrace := doLayoutRuns_eq_engineRuns E L σ buf hstep
  unfold doLayoutRuns at htrace
  rw [htrace] at hg
  have hpos := glyphsOf_pos 0 (engineRuns E L.mProps buf [] σ
    (L.mCollection.itemize buf (styleFromCss L.mProps))) 0
  refine ⟨L', σ', h, engineRuns_run E _ buf _ [] σ, engineRuns_shaped E _ buf _ [] σ, ?_, ?_, ?_⟩
  · intro run rest hrun
    unfold engineShaped
    rw [hrun]
    simp [engineRuns]
  · have := congrArg List.length hpos
    simp only [List.length_map, glyphsFrom_length] at this
    rw [hg]
    exact this
  · intro k s hs
    have h1 := glyphsFrom_getElem? 0 0 (engineShaped E L σ buf) 0 k s hs
    have h2 : (L'.mGlyphs.map glyphPos)[k]?
        = ((glyphsFrom 0 0 0 (engineShaped E L σ buf)).map glyphPos)[k]? := by
      rw [hg]
      exact congrArg (fun l => l[k]?) hpos
    rw [List.getElem?_map, List.getElem?_map, h1] at h2
    cases hk : L'.mGlyphs[k]? with
    | none => rw [hk] at h2; simp at h2
    | some g =>
      rw [hk] at h2
      simp only [Option.map_some', Option.some.injEq, glyphPos, Prod.mk.injEq] at h2
      refine ⟨g, rfl, h2.1, h2.2.1, h2.2.2, ?_⟩
      intro hsum hadv hxo hyo hxs
      have hklt : k < (engineShaped E L σ buf).length := by
        by_contra hge
        rw [List.getElem?_eq_none (by omega)] at hs
        simp at hs
      rw [h2.2.1, h2.2.2, penAfter_take_exact _ k hklt.le hsum hadv, HBFixedToFloat_exact hxo,
        HBFixedToFloat_exact hyo, fadd_exact hxs]
      refine ⟨rfl, ?_⟩
      have h0 : (0 : ℚ) = ((0 : Int) : ℚ) / 256 := by norm_num
      rw [h0, fadd_exact (by simpa using hyo)]
      simp

/-- C4: `drawGlyph` changes no pixel outside the placed rectangle
`[x, x + bmw) x [y, y + bmh)` and keeps `width` and `height`; it returns for every offset
with `0 ≤ x`; and when the rectangle is entirely outside the surface it returns the surface
as it was. -/
theorem C4_drawGlyph_frame (self : Bitmap) (bitmap : FT_Bitmap) (x y : Int) (hw : self.WF)
    (hb : bitmap.WF) :
    (∀ s', self.drawGlyph bitmap x y = some s' →
      s'.width = self.width ∧ s'.height = self.height ∧
      ∀ xx yy : Int, 0 ≤ xx → xx < self.width → 0 ≤ yy → yy < self.height →
        ¬ (x ≤ xx ∧ xx < x + bitmap.width ∧ y ≤ yy ∧ yy < y + bitmap.rows) →
        s'.pixel xx yy = self.pixel xx yy) ∧
    (0 ≤ x → ∃ s', self.drawGlyph bitmap x y = some s') ∧
    (self.width ≤ x ∨ self.height ≤ y ∨ x + bitmap.width ≤ 0 ∨ y + bitmap.rows ≤ 0 →
      self.drawGlyph bitmap x y = some self) := by
  refine ⟨fun s' h => ?_, fun hx => drawGlyph_some_of_nonneg hw hb hx,
    fun hout => drawGlyph_some_of_outside hw hout⟩
  obtain ⟨hwd, hht, _, hpix, _⟩ := drawGlyph_spec h
  refine ⟨hwd, hht, fun xx yy h1 h2 _ _ hn => (hpix xx yy h1 h2).2 (fun hc => hn ?_)⟩
  obtain ⟨c1, c2, c3, c4⟩ := hc
  omega

/-- Witness of C4: a 2 x 2 glyph drawn at `(1, 1)` onto a blank 3 x 2 surface. -/
theorem C4_drawGlyph_frame_witness :
    (Bitmap.new 3 2).WF ∧ FT_Bitmap.WF ⟨2, 2, [10, 20, 30, 40]⟩ ∧
    ((∀ s', (Bitmap.new 3 2).drawGlyph ⟨2, 2, [10, 20, 30, 40]⟩ 1 1 = some s' →
      s'.width = (Bitmap.new 3 2).width ∧ s'.height = (Bitmap.new 3 2).height ∧
      ∀ xx yy : Int, 0 ≤ xx → xx < (Bitmap.new 3 2).width → 0 ≤ yy →
        yy < (Bitmap.new 3 2).height →
        ¬ (1 ≤ xx ∧ xx < 1 + (2 : Int) ∧ 1 ≤ yy ∧ yy < 1 + (2 : Int)) →
        s'.pixel xx yy = (Bitmap.new 3 2).pixel xx yy) ∧
    ((0 : Int) ≤ 1 → ∃ s', (Bitmap.new 3 2).drawGlyph ⟨2, 2, [10, 20, 30, 40]⟩ 1 1 = some s') ∧
    ((Bitmap.new 3 2).width ≤ 1 ∨ (Bitmap.new 3 2).height ≤ 1 ∨ 1 + (2 : Int) ≤ 0 ∨
        1 + (2 : Int) ≤ 0 →
      (Bitmap.new 3 2).drawGlyph ⟨2, 2, [10, 20, 30, 40]⟩ 1 1 = some (Bitmap.new 3 2))) :=
  ⟨by unfold Bitmap.WF; decide, by unfold FT_Bitmap.WF; decide,
    C4_drawGlyph_frame (Bitmap.new 3 2) ⟨2, 2, [10, 20, 30, 40]⟩ 1 1
      (by unfold Bitmap.WF; decide) (by unfold FT_Bitmap.WF; decide)⟩

/-- C5: every pixel `drawGlyph` writes holds `min(255, d + s)`, `d` being its old coverage and
`s` the source byte added, and when `d + s` exceeds 255 that is 255 and not
`(d + s) mod 256`; every byte of the surface stays in `[0, 255]`, no byte decreases, and
`d = s = 255` yields 255. -/
theorem C5_drawGlyph_saturates (self : Bitmap) (bitmap : FT_Bitmap) (x y : Int) (s' : Bitmap)
    (hw : self.WF) (h : self.drawGlyph bitmap x y = some s') :
    (∀ xx yy : Int, 0 ≤ xx → xx < self.width → InClip self bitmap x y xx yy →
      ∃ d s, self.pixel xx yy = some d ∧ s ∈ bitmap.buffer ∧
        s'.pixel xx yy = some (min 255 (d + s)) ∧
        (s ≤ 255 → 255 < d + s → min 255 (d + s) ≠ (d + s) % 256)) ∧
    (∀ v ∈ s'.buf, v ≤ 255) ∧
    (∀ (i : Int) (d : Nat), readAt self.buf i = some d →
      ∃ d', readAt s'.buf i = some d' ∧ d ≤ d' ∧ d' ≤ 255) ∧
    (Bitmap.mk 1 1 [255]).drawGlyph ⟨1, 1, [255]⟩ 0 0 = some ⟨1, 1, [255]⟩ := by
  obtain ⟨_, _, _, hpix, hgrew⟩ := drawGlyph_spec h
  refine ⟨?_, ?_, ?_, by decide⟩
  · intro xx yy h1 h2 hc
    obtain ⟨d, s, hd, hs, hnew⟩ := (hpix xx yy h1 h2).1 hc
    refine ⟨d, s, hd, readAt_mem hs, hnew, fun hs255 hgt => ?_⟩
    have hd255 := hw.2.2.2 d (readAt_mem hd)
    omega
  · intro v hv
    have := (drawGlyph_wf hw h).2.2.2 v hv
    omega
  · intro i d hd
    obtain ⟨d', hd', hg⟩ := hgrew i d hd
    have hd255 := hw.2.2.2 d (readAt_mem hd)
    refine ⟨d', hd', ?_⟩
    rcases hg with rfl | ⟨_, _⟩ <;> omega

/-- Witness of C5: coverage 200 blended with a source byte 100 saturates at 255. -/
theorem C5_drawGlyph_saturates_witness :
    (Bitmap.mk 1 1 [200]).WF ∧
    (Bitmap.mk 1 1 [200]).drawGlyph ⟨1, 1, [100]⟩ 0 0 = some ⟨1, 1, [255]⟩ ∧
    ∀ (i : Int) (d : Nat), readAt (Bitmap.mk 1 1 [200]).buf i = some d →
      ∃ d', readAt (Bitmap.mk 1 1 [255]).buf i = some d' ∧ d ≤ d' ∧ d' ≤ 255 :=
  ⟨by unfold Bitmap.WF; decide, by decide,
    (C5_drawGlyph_saturates ⟨1, 1, [200]⟩ ⟨1, 1, [100]⟩ 0 0 ⟨1, 1, [255]⟩
      (by unfold Bitmap.WF; decide) (by decide)).2.2.1⟩

/-- C6, counterexample: a glyph at `y = 1` whose bitmap has top bearing 0, drawn at the origin
`(0, 0)` onto a blank surface of one column and two rows.  The claim puts the top row of its
bitmap at row `0 - round(1) - 0 = -1`, outside the surface; `draw` puts it at row
`0 + round(1) - 0 = 1` and the pixel of row 1 is written. -/
theorem C6_counterexample :
    drawTop 0 { font_ix := 0, glyph_id := 42, x := 0, y := 1 } (sampleEngine.glyph () 7) = 1 ∧
    (0 : Int) - ⌊(1 : ℚ) + 1 / 2⌋ - (sampleEngine.glyph () 7).bitmap_top = -1 ∧
    (sampleLaidOut.draw sampleEngine () (Bitmap.new 1 2) 0 0).map (fun r => r.1)
      = some ⟨1, 2, [0, 255]⟩ := by
  have hf : ⌊(1 : ℚ) + 1 / 2⌋ = 1 := by
    rw [Int.floor_eq_iff]
    constructor <;> norm_num
  refine ⟨?_, ?_, ?_⟩
  · simp [drawTop, roundCoord_one, sampleEngine]
  · rw [hf]
    simp [sampleEngine]
  · simp only [Layout.draw, sampleLaidOut, List.foldlM_cons, List.foldlM_nil, drawGlyphStep_eq,
      drawLeft, drawTop, roundCoord_zero, roundCoord_one]
    decide

/-- C6 as amended: `draw` is the loop over the glyph list that, for every glyph, loads and
renders the glyph on its face and composites the bitmap of the glyph slot with its top row at
the surface row `y0 + round(glyph.y) - bitmap_top`, where `round(v) = floor(v + 0.5)` and
`bitmap_top` is the top bearing of the rendered glyph, going on from the surface the glyph
before left.  The `y` of a glyph is a `float`, as is every `y` that `doLayout` leaves. -/
theorem C6_draw_top {S : Type} (E : Engine S) (L : Layout) (σ : S) (surface : Bitmap)
    (x0 y0 : Int) (hy : ∀ g ∈ L.mGlyphs, IsFloat 24 g.y) :
    L.draw E σ surface x0 y0
      = L.mGlyphs.foldlM (fun st g =>
          (vecAt L.mFaces g.font_ix).bind (fun face =>
            (st.1.drawGlyph
              (E.glyph (renderGlyph E st.2 face g.glyph_id (loadFlags L.mProps)) face).bitmap
              (drawLeft x0 g
                (E.glyph (renderGlyph E st.2 face g.glyph_id (loadFlags L.mProps)) face))
              (y0 + ⌊g.y + 1 / 2⌋ -
                (E.glyph (renderGlyph E st.2 face g.glyph_id (loadFlags L.mProps))
                  face).bitmap_top)).map
              (fun s => (s, renderGlyph E st.2 face g.glyph_id (loadFlags L.mProps)))))
          (surface, σ) ∧
    (∀ g ∈ L.mGlyphs, ∀ slot : FT_GlyphSlotRec,
      drawTop y0 g slot = y0 + ⌊g.y + 1 / 2⌋ - slot.bitmap_top) ∧
    (∀ (L0 L1 : Layout) (σ0 σ1 : S) (buf : List Nat),
      L0.doLayout E σ0 buf = some (L1, σ1) → ∀ g ∈ L1.mGlyphs, IsFloat 24 g.y) := by
  have h : ∀ g ∈ L.mGlyphs, ∀ slot : FT_GlyphSlotRec,
      drawTop y0 g slot = y0 + ⌊g.y + 1 / 2⌋ - slot.bitmap_top := by
    intro g hg slot
    unfold drawTop
    rw [roundCoord_of_isFloat (hy g hg)]
  refine ⟨?_, h, ?_⟩
  · unfold Layout.draw
    apply foldlM_congr_mem
    intro g hg st
    rw [drawGlyphStep_eq]
    simp only [h g hg]
  · intro L0 L1 σ0 σ1 buf hd g hg
    exact (doLayout_isFloat E L0 σ0 buf L1 σ1 hd g hg).2

/-- Witness of C6 as amended: the layout with one glyph at `y = 1`, top bearing 0, drawn at
the origin onto a blank surface of one column and two rows; the pixel of row 1 is written. -/
theorem C6_draw_top_witness :
    (∀ g ∈ sampleLaidOut.mGlyphs, IsFloat 24 g.y) ∧
    (sampleLaidOut.draw sampleEngine () (Bitmap.new 1 2) 0 0).map (fun r => r.1)
      = some ⟨1, 2, [0, 255]⟩ := by
  have hy : ∀ g ∈ sampleLaidOut.mGlyphs, IsFloat 24 g.y := by
    intro g hg
    simp only [sampleLaidOut, List.mem_singleton] at hg
    subst hg
    exact isFloat_one
  have hf : ⌊(1 : ℚ) + 1 / 2⌋ = 1 := by
    rw [Int.floor_eq_iff]
    constructor <;> norm_num
  refine ⟨hy, ?_⟩
  rw [(C6_draw_top sampleEngine sampleLaidOut () (Bitmap.new 1 2) 0 0 hy).1]
  simp only [sampleLaidOut, List.foldlM_cons, List.foldlM_nil, drawLeft, roundCoord_zero, hf]
  decide

/-- C7: `draw` is the loop over the glyph list that, for every glyph, loads and renders the
glyph on its face and composites the bitmap of the glyph slot with its left column at
`x0 + floor(glyph.x + 1/2) + bitmap_left`, going on from the surface the glyph before left:
the glyph's `x` is rounded half-up, so that 2.5 goes to 3, 0.5 to 1, -0.5 to 0 and -1.5 to -1.
The `x` of a glyph is a `float`, as is every `x` that `doLayout` leaves. -/
theorem C7_draw_left {S : Type} (E : Engine S) (L : Layout) (σ : S) (surface : Bitmap)
    (x0 y0 : Int) (hx : ∀ g ∈ L.mGlyphs, IsFloat 24 g.x) :
    L.draw E σ surface x0 y0
      = L.mGlyphs.foldlM (fun st g =>
          (vecAt L.mFaces g.font_ix).bind (fun face =>
            (st.1.drawGlyph
              (E.glyph (renderGlyph E st.2 face g.glyph_id (loadFlags L.mProps)) face).bitmap
              (x0 + ⌊g.x + 1 / 2⌋ +
                (E.glyph (renderGlyph E st.2 face g.glyph_id (loadFlags L.mProps))
                  face).bitmap_left)
              (drawTop y0 g
                (E.glyph (renderGlyph E st.2 face g.glyph_id (loadFlags L.mProps)) face))).map
              (fun s => (s, renderGlyph E st.2 face g.glyph_id (loadFlags L.mProps)))))
          (surface, σ) ∧
    (∀ g ∈ L.mGlyphs, ∀ slot : FT_GlyphSlotRec,
      drawLeft x0 g slot = x0 + ⌊g.x + 1 / 2⌋ + slot.bitmap_left) ∧
    (∀ (L0 L1 : Layout) (σ0 σ1 : S) (buf : List Nat),
      L0.doLayout E σ0 buf = some (L1, σ1) → ∀ g ∈ L1.mGlyphs, IsFloat 24 g.x) ∧
    roundCoord (5 / 2) = 3 ∧ roundCoord (1 / 2) = 1 ∧ roundCoord (-1 / 2) = 0 ∧
    roundCoord (-3 / 2) = -1 := by
  have h : ∀ g ∈ L.mGlyphs, ∀ slot : FT_GlyphSlotRec,
      drawLeft x0 g slot = x0 + ⌊g.x + 1 / 2⌋ + slot.bitmap_left := by
    intro g hg slot
    unfold drawLeft
    rw [roundCoord_of_isFloat (hx g hg)]
  refine ⟨?_, h, ?_, ?_, ?_, ?_, ?_⟩
  · unfold Layout.draw
    apply foldlM_congr_mem
    intro g hg st
    rw [drawGlyphStep_eq]
    simp only [h g hg]
  · intro L0 L1 σ0 σ1 buf hd g hg
    exact (doLayout_isFloat E L0 σ0 buf L1 σ1 hd g hg).1
  · rw [roundCoord_of_isFloat ⟨5, -1, by norm_num, by norm_num⟩, Int.floor_eq_iff]
    constructor <;> norm_num
  · rw [roundCoord_of_isFloat ⟨1, -1, by norm_num, by norm_num⟩, Int.floor_eq_iff]
    constructor <;> norm_num
  · rw [roundCoord_of_isFloat ⟨-1, -1, by norm_num, by norm_num⟩, Int.floor_eq_iff]
    constructor <;> norm_num
  · rw [roundCoord_of_isFloat ⟨-3, -1, by norm_num, by norm_num⟩, Int.floor_eq_iff]
    constructor <;> norm_num

/-- Witness of C7: the layout with one glyph at `x = 2.5`, left bearing 0, drawn at the
origin onto a blank surface of four columns and one row; the pixel of column 3 is written. -/
theorem C7_draw_left_witness :
    (∀ g ∈ sampleLaidOutHalf.mGlyphs, IsFloat 24 g.x) ∧
    (sampleLaidOutHalf.draw sampleEngine () (Bitmap.new 4 1) 0 0).map (fun r => r.1)
      = some ⟨4, 1, [0, 0, 0, 255]⟩ := by
  have hx : ∀ g ∈ sampleLaidOutHalf.mGlyphs, IsFloat 24 g.x := by
    intro g hg
    simp only [sampleLaidOutHalf, List.mem_singleton] at hg
    subst hg
    exact ⟨5, -1, by norm_num, by norm_num⟩
  have hf : ⌊(5 / 2 : ℚ) + 1 / 2⌋ = 3 := by
    rw [Int.floor_eq_iff]
    constructor <;> norm_num
  refine ⟨hx, ?_⟩
  rw [(C7_draw_left sampleEngine sampleLaidOutHalf () (Bitmap.new 4 1) 0 0 hx).1]
  simp only [sampleLaidOutHalf, List.foldlM_cons, List.foldlM_nil, drawTop, roundCoord_zero, hf]
  decide

/-- C8: for a `float` `v` whose 256-fold fits the 32-bit fixed-point type,
`HBFloatToFixed(v)` is `v * 256` truncated (a value of that type), `HBFixedToFloat` of that is
it divided by 256, and the round trip differs from `v` by less than 1/256; `v = 12.5` gives
the fixed value 3200 and back exactly 12.5. -/
theorem C8_fixed_roundtrip (v : ℚ) (hv : IsFloat 24 v) (hfit : |v * 256| < 2 ^ 31) :
    HBFloatToFixed v = truncToInt (v * 256) ∧
    |HBFloatToFixed v| < 2 ^ 31 ∧
    HBFixedToFloat (HBFloatToFixed v) = (HBFloatToFixed v : ℚ) / 256 ∧
    |HBFixedToFloat (HBFloatToFixed v) - v| < 1 / 256 ∧
    HBFloatToFixed (25 / 2) = 3200 ∧ HBFixedToFloat 3200 = 25 / 2 := by
  have h1 := HBFloatToFixed_of_isFloat hv
  have hw : IsFloat 24 (v * 256) := by
    have := isFloat_scale hv 8
    norm_num at this
    exact this
  have h2 : HBFixedToFloat (HBFloatToFixed v) = (HBFloatToFixed v : ℚ) / 256 := by
    apply HBFixedToFloat_of_isFloat
    rw [h1]
    exact isFloat_truncToInt hw
  have hrange : |HBFloatToFixed v| < 2 ^ 31 := by
    rw [h1]
    have h4 := lt_of_le_of_lt (truncToInt_abs_le (v * 256)) hfit
    have h5 : ((|truncToInt (v * 256)| : Int) : ℚ) < ((2 ^ 31 : Int) : ℚ) := by
      push_cast
      exact h4
    exact_mod_cast h5
  refine ⟨h1, hrange, h2, ?_, HBFloatToFixed_25_2, HBFixedToFloat_3200⟩
  rw [h2, h1]
  have h3 := truncToInt_err (v * 256)
  have : ((truncToInt (v * 256) : Int) : ℚ) / 256 - v
      = ((truncToInt (v * 256) : Int) - v * 256) / 256 := by ring
  rw [this, abs_div]
  norm_num
  linarith

/-- Witness of C8: `v = 12.5`. -/
theorem C8_fixed_roundtrip_witness :
    IsFloat 24 (25 / 2) ∧ |(25 / 2 : ℚ) * 256| < 2 ^ 31 ∧
    |HBFixedToFloat (HBFloatToFixed (25 / 2)) - 25 / 2| < 1 / 256 :=
  ⟨isFloat_25_2, by norm_num [abs_of_pos],
    (C8_fixed_roundtrip (25 / 2) isFloat_25_2 (by norm_num [abs_of_pos])).2.2.2.1⟩

/-- C9, counterexample: with an engine whose `FT_Set_Pixel_Sizes` fails with error 1,
`findFace` gives font 7 a table entry and a shaping handle all the same, and `doLayout`
returns a layout in which the run is shaped and its glyph added. -/
theorem C9_counterexample :
    (sampleEngine.FT_Set_Pixel_Sizes () 7 0 0).1 ≠ 0 ∧
    (sampleLayout.findFace sampleEngine () 7).2.1.mFaces = [7] ∧
    (sampleLayout.findFace sampleEngine () 7).2.1.mHbFonts.length = 1 ∧
    ((sampleLayout.doLayout sampleEngine () [65]).map
      (fun r => r.1.mGlyphs.map (fun g => g.glyph_id))) = some [42] := by
  refine ⟨by decide, by decide, by decide, by decide⟩

/-- C9 as amended: the error code of `FT_Set_Pixel_Sizes` has no effect.  Whatever codes it
returns, `findFace` and `doLayout` give the same results; `findFace` appends a face that is
not in the table, with a shaping handle, and returns its index; and `doLayout` always returns
a layout. -/
theorem C9_size_error_ignored {S : Type} (E : Engine S)
    (err : S → FT_Face → Int → Int → FT_Error) (L : Layout) (σ : S) (face : FT_Face)
    (buf : List Nat) :
    L.findFace (withSizeError E err) σ face = L.findFace E σ face ∧
    L.doLayout (withSizeError E err) σ buf = L.doLayout E σ buf ∧
    (L.findFace (withSizeError E err) σ face).2.1.mFaces
      = (if face ∈ L.mFaces then L.mFaces else L.mFaces ++ [face]) ∧
    (L.findFace (withSizeError E err) σ face).2.1.mHbFonts.length
      = (if face ∈ L.mFaces then L.mHbFonts.length else L.mHbFonts.length + 1) ∧
    (L.findFace (withSizeError E err) σ face).1 = (L.mFaces.indexOf face : Int) ∧
    ∃ L' σ', L.doLayout (withSizeError E err) σ buf = some (L', σ') := by
  obtain ⟨h1, h2, h3, _⟩ := findFace_spec (withSizeError E err) L σ face
  obtain ⟨L', σ', h, _⟩ := doLayout_spec (withSizeError E err) L σ buf
  refine ⟨findFace_withSizeError E err L σ face, ?_, h2, h3, h1, L', σ', h⟩
  unfold Layout.doLayout
  rw [layoutRun_withSizeError]

/-- C10: `doLayout` returns (the lookup `mHbFonts[font_ix]` is never outside the vector) and
leaves `mFaces` and `mHbFonts` of the same size; every glyph it leaves has
`0 ≤ font_ix < mFaces.size()`, so that `mFaces[font_ix]` and `mHbFonts[font_ix]` exist; the
glyph list is the concatenation of the glyphs of the runs, each tagged with the `font_ix` of
its run, and `mFaces` holds at that index the font of the run. -/
theorem C10_doLayout_font_ix {S : Type} (E : Engine S) (L : Layout) (σ : S) (buf : List Nat) :
    ∃ L' σ', L.doLayout E σ buf = some (L', σ') ∧
      L'.mFaces.length = L'.mHbFonts.length ∧
      (∀ g ∈ L'.mGlyphs, 0 ≤ g.font_ix ∧ g.font_ix < L'.mFaces.length ∧
        ∃ face font, vecAt L'.mFaces g.font_ix = some face ∧
          vecAt L'.mHbFonts g.font_ix = some font) ∧
      L'.mGlyphs = glyphsOf 0 0 (doLayoutRuns E L σ buf) ∧
      (doLayoutRuns E L σ buf).map (fun sr => sr.run)
        = L.mCollection.itemize buf (styleFromCss L.mProps) ∧
      ∀ sr ∈ doLayoutRuns E L σ buf, vecAt L'.mFaces sr.font_ix = some sr.run.font := by
  obtain ⟨L', σ', h, hl, hg, hruns, hvec, _⟩ := doLayout_spec E L σ buf
  refine ⟨L', σ', h, hl.symm, ?_, hg, hruns, hvec⟩
  intro g hgm
  rw [hg] at hgm
  obtain ⟨sr, hsr, he⟩ := glyphsOf_font_ix 0 _ 0 g hgm
  have hv := hvec sr hsr
  rw [← he] at hv
  obtain ⟨h0, h1⟩ := vecAt_eq_some hv
  have h2 : g.font_ix.toNat < L'.mHbFonts.length := by omega
  refine ⟨h0, h1, sr.run.font, L'.mHbFonts[g.font_ix.toNat], hv, ?_⟩
  simp [vecAt, h0, List.getElem?_eq_getElem h2]

/-- C11: when `drawGlyph` has drawn a bitmap at an offset, drawing the same bitmap at the
same offset again returns too, and every pixel the calls cover holds `min(255, d + 2 * s)`,
`d` being its coverage before the first call and `s` the source byte a call adds to it (for
`0 ≤ x` the bitmap pixel at column `xx - x` of row `yy - y`); the pixels not covered, and
`width` and `height`, are as before. -/
theorem C11_drawGlyph_twice (self : Bitmap) (bitmap : FT_Bitmap) (x y : Int) (s1 : Bitmap)
    (hw : self.WF) (h1 : self.drawGlyph bitmap x y = some s1) :
    ∃ s2, s1.drawGlyph bitmap x y = some s2 ∧ s2.width = self.width ∧
      s2.height = self.height ∧
      ∀ xx yy : Int, 0 ≤ xx → xx < self.width →
        (InClip self bitmap x y xx yy →
          ∃ d s, self.pixel xx yy = some d ∧
            readAt bitmap.buffer (srcIndex bitmap x y xx yy) = some s ∧
            (0 ≤ x → bitmap.pixel (xx - x) (yy - y) = some s) ∧
            s1.pixel xx yy = some (min 255 (d + s)) ∧
            s2.pixel xx yy = some (min 255 (d + 2 * s))) ∧
        (¬ InClip self bitmap x y xx yy → s2.pixel xx yy = self.pixel xx yy) := by
  obtain ⟨hw1, hh1, _, hpix1, _⟩ := drawGlyph_spec h1
  obtain ⟨s2, h2⟩ := drawGlyph_some_congr (drawGlyph_wf hw h1) hw1 hh1 h1
  obtain ⟨hw2, hh2, _, hpix2, _⟩ := drawGlyph_spec h2
  refine ⟨s2, h2, by rw [hw2, hw1], by rw [hh2, hh1], ?_⟩
  intro xx yy hx0 hx1
  have hx1' : xx < s1.width := by rw [hw1]; exact hx1
  constructor
  · intro hc
    have hc' := (inClip_congr hw1 hh1 bitmap x y xx yy).mpr hc
    obtain ⟨d, s, hd, hs, hn1⟩ := (hpix1 xx yy hx0 hx1).1 hc
    obtain ⟨d', s', hd', hs', hn2⟩ := (hpix2 xx yy hx0 hx1').1 hc'
    rw [hn1] at hd'
    rw [hs] at hs'
    cases hd'
    cases hs'
    refine ⟨d, s, hd, hs, ?_, hn1, ?_⟩
    · intro hx
      unfold FT_Bitmap.pixel
      rw [← hs]
      congr 1
      have : max 0 x - x = 0 := by omega
      rw [this]
      ring
    · rw [hn2]
      unfold blend
      congr 1
      omega
  · intro hc
    have hc' : ¬ InClip s1 bitmap x y xx yy :=
      fun h => hc ((inClip_congr hw1 hh1 bitmap x y xx yy).mp h)
    rw [(hpix2 xx yy hx0 hx1').2 hc', (hpix1 xx yy hx0 hx1).2 hc]

/-- Witness of C11: coverage 100 drawn twice over coverage 100 gives 200, then 255. -/
theorem C11_drawGlyph_twice_witness :
    (Bitmap.mk 1 1 [100]).WF ∧
    (Bitmap.mk 1 1 [100]).drawGlyph ⟨1, 1, [100]⟩ 0 0 = some ⟨1, 1, [200]⟩ ∧
    ∃ s2, (Bitmap.mk 1 1 [200]).drawGlyph ⟨1, 1, [100]⟩ 0 0 = some s2 ∧
      s2.width = (Bitmap.mk 1 1 [100]).width :=
  ⟨by unfold Bitmap.WF; decide, by decide,
    (C11_drawGlyph_twice ⟨1, 1, [100]⟩ ⟨1, 1, [100]⟩ 0 0 ⟨1, 1, [200]⟩
      (by unfold Bitmap.WF; decide) (by decide)).elim
      (fun s2 h => ⟨s2, h.1, h.2.1⟩)⟩

/-- C12: the load flags of `draw` are `FT_LOAD_DEFAULT` when the hinting property is absent;
when it is present with value `h`, they are `FT_LOAD_DEFAULT` with `FT_LOAD_NO_HINTING` added
exactly when bit 0 of `h` is set (`h` is odd) and `FT_LOAD_NO_AUTOHINT` added exactly when
bit 1 of `h` is set, whatever the other bits of `h`.  These flags are the flags argument of
`FT_Load_Glyph` for every glyph: `draw` is the loop over the glyph list whose step calls
`FT_Load_Glyph(face, glyph_id, flags)`, then `FT_Render_Glyph(face)`, and composites the
bitmap of the glyph slot; and on an engine that records its `FT_Load_Glyph` calls, `draw`
returns what it returns without the record and has added one call per glyph, in glyph order,
with the glyph's face (`mFaces[font_ix]`, which exists for every glyph when `draw` returns),
its glyph id and these flags. -/
theorem C12_loadFlags {S : Type} (E : Engine S) (L : Layout) (σ : S) (surface : Bitmap)
    (x0 y0 : Int) :
    loadFlags L.mProps =
      (if L.mProps.hasTag CssTag.minikinHinting then
        FT_LOAD_DEFAULT +
          (if (L.mProps.value CssTag.minikinHinting).getIntValue % 2 = 1
            then FT_LOAD_NO_HINTING else 0) +
          (if ((L.mProps.value CssTag.minikinHinting).getIntValue / 2) % 2 = 1
            then FT_LOAD_NO_AUTOHINT else 0)
      else FT_LOAD_DEFAULT) ∧
    (if L.mProps.hasTag CssTag.minikinHinting then
      (Int.land (loadFlags L.mProps) FT_LOAD_NO_HINTING = FT_LOAD_NO_HINTING ↔
        (L.mProps.value CssTag.minikinHinting).getIntValue.testBit 0 = true) ∧
      (Int.land (loadFlags L.mProps) FT_LOAD_NO_AUTOHINT = FT_LOAD_NO_AUTOHINT ↔
        (L.mProps.value CssTag.minikinHinting).getIntValue.testBit 1 = true)
     else
      Int.land (loadFlags L.mProps) FT_LOAD_NO_HINTING = 0 ∧
      Int.land (loadFlags L.mProps) FT_LOAD_NO_AUTOHINT = 0) ∧
    L.draw E σ surface x0 y0
      = L.mGlyphs.foldlM (fun st g =>
          (vecAt L.mFaces g.font_ix).bind (fun face =>
            (st.1.drawGlyph
              (E.glyph (E.FT_Render_Glyph
                (E.FT_Load_Glyph st.2 face g.glyph_id (loadFlags L.mProps)).2 face).2 face).bitmap
              (drawLeft x0 g (E.glyph (E.FT_Render_Glyph
                (E.FT_Load_Glyph st.2 face g.glyph_id (loadFlags L.mProps)).2 face).2 face))
              (drawTop y0 g (E.glyph (E.FT_Render_Glyph
                (E.FT_Load_Glyph st.2 face g.glyph_id (loadFlags L.mProps)).2 face).2 face))).map
              (fun s => (s, (E.FT_Render_Glyph
                (E.FT_Load_Glyph st.2 face g.glyph_id (loadFlags L.mProps)).2 face).2))))
          (surface, σ) ∧
    (∀ log : List (FT_Face × Nat × Int),
      L.draw (recordLoads E) (σ, log) surface x0 y0
        = (L.draw E σ surface x0 y0).map (fun r => (r.1, (r.2,
            log ++ L.mGlyphs.map (fun g =>
              ((vecAt L.mFaces g.font_ix).getD 0, g.glyph_id, loadFlags L.mProps)))))) := by
  refine ⟨?_, ?_, ?_, ?_⟩
  · rw [loadFlags_eq]
    split
    · generalize (L.mProps.value CssTag.minikinHinting).getIntValue = h
      have e0 := testBit_zero_iff h
      have e1 := testBit_one_iff h
      by_cases c0 : h % 2 = 1 <;> by_cases c1 : h / 2 % 2 = 1
      · rw [if_pos c0, if_pos c1, if_pos (e0.mpr c0), if_pos (e1.mpr c1)]; decide
      · rw [if_pos c0, if_neg c1, if_pos (e0.mpr c0), if_neg (mt e1.mp c1)]; decide
      · rw [if_neg c0, if_pos c1, if_neg (mt e0.mp c0), if_pos (e1.mpr c1)]; decide
      · rw [if_neg c0, if_neg c1, if_neg (mt e0.mp c0), if_neg (mt e1.mp c1)]; decide
    · rfl
  · rw [loadFlags_eq]
    split
    · cases (L.mProps.value CssTag.minikinHinting).getIntValue.testBit 0 <;>
        cases (L.mProps.value CssTag.minikinHinting).getIntValue.testBit 1 <;> decide
    · decide
  · unfold Layout.draw
    apply foldlM_congr_mem
    intro g _ st
    rw [drawGlyphStep_eq]
    rfl
  · intro log
    exact draw_recordLoads E L.mFaces (loadFlags L.mProps) x0 y0 L.mGlyphs surface σ log

/-- C13: `doLayout` is not incremental.  Whatever glyph list, face table and handle table the
layout held before, the call gives the result it gives on the layout without them; so after
laying out a text `A`, laying out a text `B` gives what it gives on the original layout from
the same engine state, and the call for `A` repeated from the same engine state gives the
same layout again. -/
theorem C13_doLayout_not_incremental {S : Type} (E : Engine S) (L : Layout) (σ : S)
    (bufA : List Nat) :
    (∀ (glyphs : List LayoutGlyph) (faces : List FT_Face) (fonts : List hb_font_t)
        (σ' : S) (buf : List Nat),
      Layout.doLayout E { L with mGlyphs := glyphs, mFaces := faces, mHbFonts := fonts } σ' buf
        = L.doLayout E σ' buf) ∧
    ∃ LA σA, L.doLayout E σ bufA = some (LA, σA) ∧
      (∀ (σ' : S) (bufB : List Nat), LA.doLayout E σ' bufB = L.doLayout E σ' bufB) ∧
      LA.doLayout E σ bufA = some (LA, σA) := by
  refine ⟨fun _ _ _ _ _ => rfl, ?_⟩
  obtain ⟨LA, σA, h, _, _, _, _, hp, hc⟩ := doLayout_spec E L σ bufA
  have e : LA = { L with mGlyphs := LA.mGlyphs, mFaces := LA.mFaces, mHbFonts := LA.mHbFonts } := by
    cases LA
    simp only at hp hc
    subst hp hc
    rfl
  have hB : ∀ (σ' : S) (bufB : List Nat), LA.doLayout E σ' bufB = L.doLayout E σ' bufB := by
    intro σ' bufB
    rw [e]
    rfl
  exact ⟨LA, σA, h, hB, by rw [hB, h]⟩

/-- C14: for a fixed-point position `n` with `|n| ≤ 2 ^ 24`, `HBFixedToFloat(n)` is exactly
`n / 256`, so that `256 * k` gives exactly `k` pixels, and
`HBFloatToFixed(HBFixedToFloat(n)) = n`. -/
theorem C14_fixed_exact (n : Int) (h : |n| ≤ 2 ^ 24) :
    HBFixedToFloat n = (n : ℚ) / 256 ∧
    (∀ k : Int, n = 256 * k → HBFixedToFloat n = (k : ℚ)) ∧
    HBFloatToFixed (HBFixedToFloat n) = n := by
  refine ⟨HBFixedToFloat_exact h, ?_, HBFloatToFixed_HBFixedToFloat h⟩
  intro k hk
  rw [HBFixedToFloat_exact h, hk]
  push_cast
  ring

/-- Witness of C14: the fixed value 3200 is 12.5 pixels and converts back to 3200. -/
theorem C14_fixed_exact_witness :
    |(3200 : Int)| ≤ 2 ^ 24 ∧ HBFixedToFloat 3200 = ((3200 : Int) : ℚ) / 256 ∧
    HBFloatToFixed (HBFixedToFloat 3200) = 3200 :=
  ⟨by decide, (C14_fixed_exact 3200 (by decide)).1, (C14_fixed_exact 3200 (by decide)).2.2⟩

/-- C15, counterexample: with an engine whose `FT_Load_Glyph` and `FT_Render_Glyph` fail with
error 1 while the glyph slot holds a one-pixel bitmap of coverage 255, `draw` of a single
glyph at the origin onto a blank 1 x 1 surface leaves the pixel at 255: the failed glyph has
contributed pixels. -/
theorem C15_counterexample :
    (failingRenderEngine.FT_Load_Glyph () 7 42 (loadFlags sampleLaidOutOrigin.mProps)).1 ≠ 0 ∧
    (failingRenderEngine.FT_Render_Glyph () 7).1 ≠ 0 ∧
    (sampleLaidOutOrigin.draw failingRenderEngine () (Bitmap.new 1 1) 0 0).map (fun r => r.1)
      = some ⟨1, 1, [255]⟩ ∧
    Bitmap.new 1 1 ≠ ⟨1, 1, [255]⟩ := by
  refine ⟨by decide, by decide, ?_, by decide⟩
  simp only [Layout.draw, sampleLaidOutOrigin, List.foldlM_cons, List.foldlM_nil, drawGlyphStep_eq,
    drawLeft, drawTop, roundCoord_zero]
  decide

/-- C15 as amended: the error codes of `FT_Load_Glyph` and `FT_Render_Glyph` have no effect on
`draw`.  Whatever codes they return, the step of a glyph composites the bitmap that the glyph
slot of its face holds after the two calls, at the position given by the slot's bearings, and
`draw` goes on with the remaining glyphs from the surface that step leaves. -/
theorem C15_render_errors_ignored {S : Type} (E : Engine S)
    (errLoad : S → FT_Face → Nat → Int → FT_Error) (errRender : S → FT_Face → FT_Error)
    (L : Layout) (σ : S) (surface : Bitmap) (x0 y0 : Int) (g : LayoutGlyph)
    (rest : List LayoutGlyph) :
    L.draw (withGlyphErrors E errLoad errRender) σ surface x0 y0 = L.draw E σ surface x0 y0 ∧
    drawGlyphStep (withGlyphErrors E errLoad errRender) L.mFaces (loadFlags L.mProps) x0 y0
        (surface, σ) g
      = (vecAt L.mFaces g.font_ix).bind (fun face =>
          (surface.drawGlyph
            (E.glyph (renderGlyph E σ face g.glyph_id (loadFlags L.mProps)) face).bitmap
            (drawLeft x0 g (E.glyph (renderGlyph E σ face g.glyph_id (loadFlags L.mProps)) face))
            (drawTop y0 g
              (E.glyph (renderGlyph E σ face g.glyph_id (loadFlags L.mProps)) face))).map
            (fun s => (s, renderGlyph E σ face g.glyph_id (loadFlags L.mProps)))) ∧
    Layout.draw (withGlyphErrors E errLoad errRender) { L with mGlyphs := g :: rest } σ surface
        x0 y0
      = (drawGlyphStep E L.mFaces (loadFlags L.mProps) x0 y0 (surface, σ) g).bind
          (fun st => Layout.draw E { L with mGlyphs := rest } st.2 st.1 x0 y0) := by
  refine ⟨rfl, ?_, ?_⟩
  · rw [drawGlyphStep_withGlyphErrors, drawGlyphStep_eq]
  · simp only [Layout.draw, List.foldlM_cons, drawGlyphStep_withGlyphErrors]
    rfl

/-- C16: when `itemize` returns no run, `doLayout` leaves an empty glyph list, an empty face
table and an empty handle table, whatever the layout held before, and a following `draw` at
any origin returns any surface unchanged. -/
theorem C16_no_runs {S : Type} (E : Engine S) (L : Layout) (σ : S) (buf : List Nat)
    (hruns : L.mCollection.itemize buf (styleFromCss L.mProps) = []) :
    ∃ L', L.doLayout E σ buf = some (L', σ) ∧ L'.mGlyphs = [] ∧ L'.mFaces = [] ∧
      L'.mHbFonts = [] ∧
      ∀ (σ' : S) (surface : Bitmap) (x0 y0 : Int),
        L'.draw E σ' surface x0 y0 = some (surface, σ') := by
  refine ⟨{ L with mGlyphs := [], mFaces := [], mHbFonts := [] }, ?_, rfl, rfl, rfl, ?_⟩
  · unfold Layout.doLayout
    simp only [hruns]
    rfl
  · intro σ' surface x0 y0
    rfl

/-- Witness of C16: a layout that holds a glyph and a face from an earlier pass and whose
collection returns no run. -/
theorem C16_no_runs_witness :
    sampleNoRuns.mCollection.itemize [] (styleFromCss sampleNoRuns.mProps) = [] ∧
    sampleNoRuns.mGlyphs ≠ [] ∧
    ∃ L', sampleNoRuns.doLayout sampleEngine () [] = some (L', ()) ∧ L'.mGlyphs = [] ∧
      L'.mFaces = [] ∧ L'.mHbFonts = [] ∧
      ∀ (σ' : Unit) (surface : Bitmap) (x0 y0 : Int),
        L'.draw sampleEngine σ' surface x0 y0 = some (surface, σ') :=
  ⟨rfl, by simp [sampleNoRuns, sampleLaidOut], C16_no_runs sampleEngine sampleNoRuns () [] rfl⟩

/-- C17 (the code departs from the claim): a glyph bitmap of one row `[10, 20]` drawn at
`x = -1`, `y = 0` onto a blank 2 x 2 surface.  The loops visit the surface pixel `(0, 0)`,
for which the source index of the claim is `(0 - 0) * 2 + (0 - (-1)) + (0 - 0) * 2 +
(0 - (-1)) = 2`, outside `[0, 2 * 1)`: the read leaves the buffer and `drawGlyph` has no
defined result. -/
theorem C17_drawGlyph_source_out_of_bounds :
    (Bitmap.new 2 2).drawGlyph ⟨1, 2, [10, 20]⟩ (-1) 0 = none ∧
    InClip (Bitmap.new 2 2) ⟨1, 2, [10, 20]⟩ (-1) 0 0 0 ∧
    ((max 0 0 - 0) * 2 + (max 0 (-1) - (-1)) + (0 - max 0 0) * 2 + (0 - (-1)) : Int) = 2 ∧
    srcIndex ⟨1, 2, [10, 20]⟩ (-1) 0 0 0 = 2 ∧
    readAt [10, 20] 2 = none ∧ ¬ ((2 : Int) < 2 * 1) := by
  refine ⟨by decide, by decide, by decide, by decide, by decide, by decide⟩

/-- C18: compositing is order-independent.  Drawing a bitmap `a` and then a bitmap `b`
gives the result of drawing `b` and then `a`; when each of them can be drawn on the surface
both orders return, with the same surface; and at a pixel the two orders of blending agree,
`min(255, min(255, d + sa) + sb) = min(255, min(255, d + sb) + sa)`. -/
theorem C18_drawGlyph_order (self : Bitmap) (a b : FT_Bitmap) (xa ya xb yb : Int)
    (hw : self.WF) :
    (self.drawGlyph a xa ya).bind (fun s => s.drawGlyph b xb yb)
      = (self.drawGlyph b xb yb).bind (fun s => s.drawGlyph a xa ya) ∧
    (∀ sa sb, self.drawGlyph a xa ya = some sa → self.drawGlyph b xb yb = some sb →
      ∃ r, sa.drawGlyph b xb yb = some r ∧ sb.drawGlyph a xa ya = some r) ∧
    (∀ d sa sb : Nat,
      min 255 (min 255 (d + sa) + sb) = min 255 (min 255 (d + sb) + sa)) := by
  refine ⟨drawGlyph_comm self a b xa ya xb yb hw,
    fun sa sb ha hb => drawGlyph_comm_some hw ha hb, fun d sa sb => by omega⟩

/-- Witness of C18: two one-pixel bitmaps of coverage 100 and 200 drawn onto the two pixels
of a blank 2 x 1 surface, the second overlapping nothing of the first. -/
theorem C18_drawGlyph_order_witness :
    (Bitmap.new 2 1).WF ∧
    ((Bitmap.new 2 1).drawGlyph ⟨1, 1, [100]⟩ 0 0).bind
        (fun s => s.drawGlyph ⟨1, 1, [200]⟩ 1 0)
      = ((Bitmap.new 2 1).drawGlyph ⟨1, 1, [200]⟩ 1 0).bind
        (fun s => s.drawGlyph ⟨1, 1, [100]⟩ 0 0) :=
  ⟨by unfold Bitmap.WF; decide,
    (C18_drawGlyph_order (Bitmap.new 2 1) ⟨1, 1, [100]⟩ ⟨1, 1, [200]⟩ 0 0 1 0
      (by unfold Bitmap.WF; decide)).1⟩

/-- C19, counterexample: the FreeType advance `p = 2 ^ 24 + 1` (262144 + 1/64 pixels).  Its
4-fold `67108868` fits the 32-bit position type and `ft_pos_to_hb(p) = 4 * p`, but the
conversion of that value to `float` rounds it to `2 ^ 26`, so `HBFixedToFloat` gives 262144
and not `p / 64`. -/
theorem C19_counterexample :
    -2 ^ 31 ≤ 4 * (16777217 : Int) ∧ 4 * (16777217 : Int) < 2 ^ 31 ∧
    ft_pos_to_hb 16777217 = 4 * 16777217 ∧
    HBFixedToFloat (ft_pos_to_hb 16777217) = 262144 ∧
    HBFixedToFloat (ft_pos_to_hb 16777217) ≠ (16777217 : ℚ) / 64 := by
  have h : ft_pos_to_hb 16777217 = 67108868 := by decide
  refine ⟨by norm_num, by norm_num, by rw [h]; norm_num,
    by rw [h]; exact HBFixedToFloat_67108868, ?_⟩
  rw [h, HBFixedToFloat_67108868]
  norm_num

/-- C19 as amended: for a FreeType 26.6 advance `p` with `|p| ≤ 2 ^ 24`,
`ft_pos_to_hb(p) = 4 * p` and `HBFixedToFloat(ft_pos_to_hb(p)) = p / 64` exactly; the advance
callback returns `ft_pos_to_hb` of the advance of the glyph slot after `FT_Load_Glyph`; and a
glyph shaped with that advance moves the pen from `x` to the `float` sum of `x` and
`p / 64`. -/
theorem C19_advance_units {S : Type} (E : Engine S) (σ : S) (ftFace : FT_Face) (glyph : Nat)
    (p : Int) (hp : |p| ≤ 2 ^ 24) :
    ft_pos_to_hb p = 4 * p ∧
    HBFixedToFloat (ft_pos_to_hb p) = (p : ℚ) / 64 ∧
    (harfbuzzGetGlyphHorizontalAdvance E σ ftFace glyph).1
      = ft_pos_to_hb
          (E.glyph (E.FT_Load_Glyph σ ftFace glyph FT_LOAD_DEFAULT).2 ftFace).advance_x ∧
    (∀ (font_ix : Int) (st : LayoutState S) (g : ShapedGlyph),
      g.x_advance = ft_pos_to_hb p →
        (layoutGlyph font_ix st g).x = fadd st.x ((p : ℚ) / 64)) := by
  have hb := abs_le.mp hp
  have h1 : ft_pos_to_hb p = 4 * p := ft_pos_to_hb_of_fits (by omega) (by omega)
  have h2 : HBFixedToFloat (ft_pos_to_hb p) = (p : ℚ) / 64 := by
    rw [h1]
    exact HBFixedToFloat_ft_pos hp
  refine ⟨h1, h2, rfl, ?_⟩
  intro font_ix st g hg
  simp only [layoutGlyph, hg, h2]

/-- Witness of C19 as amended: the advance `p = 640`, ten pixels. -/
theorem C19_advance_units_witness :
    |(640 : Int)| ≤ 2 ^ 24 ∧ ft_pos_to_hb 640 = 4 * 640 ∧
    HBFixedToFloat (ft_pos_to_hb 640) = ((640 : Int) : ℚ) / 64 :=
  ⟨by decide, (C19_advance_units sampleEngine () 7 42 640 (by decide)).1,
    (C19_advance_units sampleEngine () 7 42 640 (by decide)).2.1⟩

end android
